import Mathlib

/-!
Verification of the repository core of a jj-style version control system
against its natural-language specification.

The development shallowly embeds the Rust sources:
  * `src/lib/src/repo.rs`   — `MutableRepo` (view invariants, view merge,
    `set_wc_commit`) and the prefix `Trie`;
  * `src/lib/src/annotate.rs` — the per-line annotation (blame) engine;
  * `src/lib/src/unified_diff.rs` — unified-diff hunk assembly.

Pure functions are translated directly; stateful Rust methods become
explicit state-passing functions.  External collaborators that are not
part of the sources (the index, `view.rs` mutators, the object store,
the revset engine, the line-diff engine) are modelled from the
specification; each such definition carries a doc comment starting with
"Modelled from the spec:".
-/

set_option maxHeartbeats 1000000

namespace JJ

/-! ## Identifiers

All ids are opaque byte strings in the source; the embedding uses `Nat`
for commit ids and workspace ids (only equality is used by the
translated code). -/

abbrev CommitId := Nat
abbrev WorkspaceId := Nat

/-! ## Ref targets and ref names

`op_store::RefTarget` is either `Normal(CommitId)` or
`Conflict { removes, adds }`; "absent" is `Option::None` at use sites.
`view::RefName` distinguishes local branches, remote branches, tags and
git refs. -/

inductive RefTarget where
  | normal (id : CommitId)
  | conflict (removes : List CommitId) (adds : List CommitId)
deriving DecidableEq

inductive RefName where
  | localBranch (name : String)
  | remoteBranch (branch : String) (remote : String)
  | tag (name : String)
  | gitRef (name : String)
deriving DecidableEq

/-! ## The view

`op_store::View` holds head sets, public head sets, the per-workspace
working-copy commits and the named refs.  The embedding models the two
head sets as `Finset CommitId` (the source uses `HashSet<CommitId>`),
the workspace map as a function `WorkspaceId → Option CommitId`
(`HashMap<WorkspaceId, CommitId>`), and all named refs as a single
function `RefName → Option RefTarget`, which is exactly the view's
`get_ref` interface (branches, tags and git refs flattened by name). -/

@[ext]
structure View where
  head_ids : Finset CommitId
  public_head_ids : Finset CommitId
  wc_commit_ids : WorkspaceId → Option CommitId
  refs : RefName → Option RefTarget

/-- Modelled from the spec: §4.3, the index operation
`heads(iter<CommitId>) → Vec<CommitId>` which "filter[s] out ancestors".
The index itself is not under `src/`; its ancestry relation is an
arbitrary boolean relation `anc`, and `indexHeads` keeps exactly the
elements of `s` that are not an ancestor of some other element of `s`. -/
def indexHeads (anc : CommitId → CommitId → Bool) (s : Finset CommitId) : Finset CommitId :=
  s.filter (fun x => ∀ y ∈ s, y ≠ x → anc x y = false)

/-- `MutableRepo::enforce_view_invariants` (repo.rs lines 766-781):
simplify `public_head_ids` through the index, extend `head_ids` with the
simplified public heads, then simplify `head_ids` through the index. -/
def enforce_view_invariants (anc : CommitId → CommitId → Bool) (v : View) : View :=
  let pub := indexHeads anc v.public_head_ids
  { v with
    public_head_ids := pub
    head_ids := indexHeads anc (v.head_ids ∪ pub) }

/-! ## Working-copy merge (repo.rs `MutableRepo::merge_view`, first part)

The two `wc_commit_ids` loops of `merge_view` (repo.rs lines 926-951)
iterate over the key sets of `base` resp. `other` and each iteration
reads and writes only the map entry of the iterated workspace id, so
they are captured exactly by the following per-key function: the
`some base_checkout` arm is the body of the first loop (which runs
precisely for the workspaces present in `base`), and the `none` arm is
the body of the second loop (which changes `self` only for workspaces
absent from both `self` and `base`). -/
def mergeWcAt (self_checkout base_checkout other_checkout : Option CommitId) :
    Option CommitId :=
  match base_checkout with
  | some b =>
    if other_checkout = some b ∨ other_checkout = self_checkout then
      -- The other side didn't change or both sides changed in the same way.
      self_checkout
    else
      match other_checkout with
      | some oc => if self_checkout = some b then some oc else self_checkout
      | none =>
        -- The other side removed the workspace. We want to remove it even if
        -- the self side changed the checkout.
        none
  | none =>
    match self_checkout, other_checkout with
    | none, some oc => some oc  -- The other side added the workspace.
    | s, _ => s

/-! ## Ref merge (modelled) -/

/-- Modelled from the spec: the positive part of a ref target's signed
multiset (§4.4 step 1): `normal(x)` contributes `+x`, a conflict
contributes its `adds`, absent contributes nothing. -/
def refTargetAdds : Option RefTarget → List CommitId
  | none => []
  | some (.normal x) => [x]
  | some (.conflict _ adds) => adds

/-- Modelled from the spec: the negative part of a ref target's signed
multiset (§4.4 step 1). -/
def refTargetRemoves : Option RefTarget → List CommitId
  | none => []
  | some (.normal _) => []
  | some (.conflict removes _) => removes

/-- Modelled from the spec: §4.4 step 2 "cancel pairs" — remove matching
(add, remove) pairs from the signed multiset, one occurrence at a time. -/
def cancelPairs (adds removes : List CommitId) : List CommitId × List CommitId :=
  match removes with
  | [] => (adds, [])
  | r :: rs =>
    if r ∈ adds then cancelPairs (adds.erase r) rs
    else
      let p := cancelPairs adds rs
      (p.1, r :: p.2)

/-- Modelled from the spec: §4.4 step 4 — before emitting a conflict,
drop a commit from a side if it is an ancestor of another commit on the
same side. -/
def simplifySide (anc : CommitId → CommitId → Bool) (l : List CommitId) : List CommitId :=
  l.filter (fun x => ! l.any (fun y => decide (y ≠ x) && anc x y))

/-- Modelled from the spec: `refs::merge_ref_targets` is not under
`src/`.  §8 states the algebraic laws `merge(base, L, R) = merge(base, R, L)`
and `merge(base, X, X) = X`, so a side equal to the base yields the other
side and two equal sides yield that side; otherwise §4.4 steps 1-4 apply:
signed-multiset addition `left + right − base`, pair cancellation,
ancestry simplification, and emission as normal/absent/conflict. -/
def merge_ref_targets (anc : CommitId → CommitId → Bool)
    (left base right : Option RefTarget) : Option RefTarget :=
  if left = base then right
  else if right = base then left
  else if left = right then left
  else
    let adds0 := refTargetAdds left ++ refTargetRemoves base ++ refTargetAdds right
    let removes0 := refTargetRemoves left ++ refTargetAdds base ++ refTargetRemoves right
    let p := cancelPairs adds0 removes0
    match p.1, p.2 with
    | [x], [] => some (.normal x)
    | [], [] => none
    | adds, removes => some (.conflict (simplifySide anc removes) (simplifySide anc adds))

/-- Modelled from the spec: `View::merge_single_ref` (view.rs, not under
`src/`): if the base and other targets differ, replace the ref's target
with the three-way merge of self, base and other. -/
def View.merge_single_ref (anc : CommitId → CommitId → Bool) (v : View) (name : RefName)
    (base_target other_target : Option RefTarget) : View :=
  if base_target ≠ other_target then
    { v with refs := fun n =>
        if n = name then merge_ref_targets anc (v.refs name) base_target other_target
        else v.refs n }
  else v

/-- `MutableRepo::merge_view` (repo.rs lines 924-1026), as a function of
the self view, the base view and the other view.  Field by field:
  * `wc_commit_ids`: the two workspace loops, per key (`mergeWcAt`);
  * `public_head_ids`: remove `base \ other`, then add `other \ base`
    (the two `public_heads` loops; the removed and added sets are
    disjoint, so the sequential loops equal this set expression);
  * `head_ids`: add every head of `other` that is not a head of `base`
    (`record_rewrites` touches only the rewritten/abandoned maps, never
    the view, and is therefore not part of the view result);
  * `refs`: the `maybe_changed_ref_names` loop calls
    `View::merge_single_ref` exactly for names whose base and other
    targets can differ, and `merge_single_ref` is the identity when they
    are equal, so per name the result is the guarded three-way merge. -/
def MutableRepo.merge_view (anc : CommitId → CommitId → Bool)
    (self base other : View) : View where
  head_ids := self.head_ids ∪ (other.head_ids \ base.head_ids)
  public_head_ids :=
    (self.public_head_ids \ (base.public_head_ids \ other.public_head_ids)) ∪
      (other.public_head_ids \ base.public_head_ids)
  wc_commit_ids := fun ws =>
    mergeWcAt (self.wc_commit_ids ws) (base.wc_commit_ids ws) (other.wc_commit_ids ws)
  refs := fun n =>
    if base.refs n = other.refs n then self.refs n
    else merge_ref_targets anc (self.refs n) (base.refs n) (other.refs n)

/-! ## `set_wc_commit` (repo.rs lines 706-716) -/

/-- Error from attempts to check out the root commit for editing
(repo.rs `RewriteRootCommit`). -/
inductive RewriteRootCommit where
  | mk
deriving DecidableEq

/-- Modelled from the spec: `View::set_wc_commit` (view.rs, not under
`src/`) inserts into the `WorkspaceId → CommitId` map. -/
def View.set_wc_commit (v : View) (workspace_id : WorkspaceId) (commit_id : CommitId) : View :=
  { v with wc_commit_ids := fun w =>
      if w = workspace_id then some commit_id else v.wc_commit_ids w }

/-- `MutableRepo::set_wc_commit`: reject the store's root commit id with
`RewriteRootCommit` before touching the view, otherwise set the
workspace's working-copy commit.  The state-passing pair returns the
(possibly updated) view together with the optional error. -/
def MutableRepo.set_wc_commit (root_commit_id : CommitId) (v : View)
    (workspace_id : WorkspaceId) (commit_id : CommitId) :
    View × Option RewriteRootCommit :=
  if commit_id = root_commit_id then (v, some .mk)
  else (v.set_wc_commit workspace_id commit_id, none)

/-! ## Theorems about view invariants and view merge -/

/-- Every element surviving the `indexHeads` filter is not an ancestor of
any other member of the input set. -/
theorem mem_indexHeads_not_anc {anc : CommitId → CommitId → Bool} {s : Finset CommitId}
    {x y : CommitId} (hx : x ∈ indexHeads anc s) (hy : y ∈ s) (hxy : x ≠ y) :
    anc x y = false := by
  rw [indexHeads, Finset.mem_filter] at hx
  exact hx.2 y hy (Ne.symm hxy)

theorem indexHeads_subset (anc : CommitId → CommitId → Bool) (s : Finset CommitId) :
    indexHeads anc s ⊆ s :=
  Finset.filter_subset _ s

/-- C1: after view-invariant enforcement, no element of `head_ids` is an
ancestor of another element according to the index's ancestry relation;
`head_ids` is an antichain. -/
theorem enforce_view_invariants_heads_antichain
    (anc : CommitId → CommitId → Bool) (v : View) (x y : CommitId)
    (hx : x ∈ (enforce_view_invariants anc v).head_ids)
    (hy : y ∈ (enforce_view_invariants anc v).head_ids)
    (hxy : x ≠ y) :
    anc x y = false := by
  have hy' : y ∈ v.head_ids ∪ indexHeads anc v.public_head_ids :=
    indexHeads_subset anc _ hy
  exact mem_indexHeads_not_anc hx hy' hxy

/-- A two-head view used to exercise the antichain theorem on concrete data. -/
def viewTwoHeads : View :=
  { head_ids := {0, 1}
    public_head_ids := ∅
    wc_commit_ids := fun _ => none
    refs := fun _ => none }

/-- Witness for C1 at a concrete index relation and view. -/
theorem enforce_view_invariants_heads_antichain_witness :
    (fun _ _ => false) 0 1 = false :=
  enforce_view_invariants_heads_antichain (fun _ _ => false) viewTwoHeads 0 1
    (by decide) (by decide) (by decide)

/-- An index relation with a single ancestry edge 0 → 1. -/
def ancZeroOne : CommitId → CommitId → Bool := fun a b => a == 0 && b == 1

/-- A view whose only head is 1 and whose only public head is 0,
an ancestor of 1. -/
def viewC9 : View :=
  { head_ids := {1}
    public_head_ids := {0}
    wc_commit_ids := fun _ => none
    refs := fun _ => none }

/-- C9 counterexample: after enforcement, the public head 0 (an ancestor
of the head 1) is dropped from `head_ids` by the final simplification but
kept in `public_head_ids`, so `public_head_ids` is not a subset of
`head_ids`. -/
theorem enforce_view_invariants_public_not_subset :
    ¬ ((enforce_view_invariants ancZeroOne viewC9).public_head_ids ⊆
        (enforce_view_invariants ancZeroOne viewC9).head_ids) := by
  decide

/-- Every member of a finite set reaches, along the ancestry relation, a
member that survives the `indexHeads` filter, provided the relation is
transitive and compatible with a rank function (the index's topological
numbering, spec §4.3). -/
theorem exists_indexHeads_above (anc : CommitId → CommitId → Bool) (rank : CommitId → Nat)
    (htrans : ∀ a b c, anc a b = true → anc b c = true → anc a c = true)
    (hrank : ∀ a b, anc a b = true → rank a < rank b)
    (s : Finset CommitId) (x : CommitId) (hx : x ∈ s) :
    ∃ y ∈ indexHeads anc s, x = y ∨ anc x y = true := by
  have main : ∀ n x, x ∈ s → (s.filter (fun z => rank x < rank z)).card ≤ n →
      ∃ y ∈ indexHeads anc s, x = y ∨ anc x y = true := by
    intro n
    induction n with
    | zero =>
      intro x hx hcard
      by_cases hmem : x ∈ indexHeads anc s
      · exact ⟨x, hmem, Or.inl rfl⟩
      · rw [indexHeads, Finset.mem_filter] at hmem
        push_neg at hmem
        obtain ⟨y, hy, hyx, hanc⟩ := hmem hx
        have : y ∈ s.filter (fun z => rank x < rank z) := by
          rw [Finset.mem_filter]
          exact ⟨hy, hrank _ _ (by simpa using hanc)⟩
        have : 0 < (s.filter (fun z => rank x < rank z)).card :=
          Finset.card_pos.mpr ⟨y, this⟩
        omega
    | succ n ih =>
      intro x hx hcard
      by_cases hmem : x ∈ indexHeads anc s
      · exact ⟨x, hmem, Or.inl rfl⟩
      · rw [indexHeads, Finset.mem_filter] at hmem
        push_neg at hmem
        obtain ⟨y, hy, hyx, hanc⟩ := hmem hx
        have hancxy : anc x y = true := by simpa using hanc
        have hsub : s.filter (fun z => rank y < rank z) ⊆
            (s.filter (fun z => rank x < rank z)).erase y := by
          intro z hz
          rw [Finset.mem_filter] at hz
          rw [Finset.mem_erase, Finset.mem_filter]
          have hxy := hrank _ _ hancxy
          refine ⟨?_, hz.1, by omega⟩
          intro hzy
          subst hzy
          omega
        have hcard' : (s.filter (fun z => rank y < rank z)).card ≤ n := by
          have h1 := Finset.card_le_card hsub
          have h2 : y ∈ s.filter (fun z => rank x < rank z) := by
            rw [Finset.mem_filter]
            exact ⟨hy, hrank _ _ hancxy⟩
          have h3 := Finset.card_erase_of_mem h2
          omega
        obtain ⟨h, hh, hcase⟩ := ih y hy hcard'
        refine ⟨h, hh, Or.inr ?_⟩
        rcases hcase with rfl | hyh
        · exact hancxy
        · exact htrans _ _ _ hancxy hyh
  exact main _ x hx le_rfl

/-- C9 amended: after enforcement, every public head is either itself a
head or a (proper) ancestor of a head, assuming the index ancestry
relation is transitive and respects a topological rank. -/
theorem enforce_view_invariants_public_head_covered
    (anc : CommitId → CommitId → Bool) (rank : CommitId → Nat) (v : View)
    (htrans : ∀ a b c, anc a b = true → anc b c = true → anc a c = true)
    (hrank : ∀ a b, anc a b = true → rank a < rank b)
    (x : CommitId) (hx : x ∈ (enforce_view_invariants anc v).public_head_ids) :
    x ∈ (enforce_view_invariants anc v).head_ids ∨
      ∃ y ∈ (enforce_view_invariants anc v).head_ids, anc x y = true := by
  have hx' : x ∈ v.head_ids ∪ indexHeads anc v.public_head_ids :=
    Finset.mem_union_right _ hx
  obtain ⟨y, hy, hcase⟩ :=
    exists_indexHeads_above anc rank htrans hrank _ x hx'
  rcases hcase with rfl | hanc
  · exact Or.inl hy
  · exact Or.inr ⟨y, hy, hanc⟩

/-- Witness for the amended C9 at the concrete one-edge index. -/
theorem enforce_view_invariants_public_head_covered_witness :
    0 ∈ (enforce_view_invariants ancZeroOne viewC9).head_ids ∨
      ∃ y ∈ (enforce_view_invariants ancZeroOne viewC9).head_ids,
        ancZeroOne 0 y = true :=
  enforce_view_invariants_public_head_covered ancZeroOne (fun n => n) viewC9
    (by
      intro a b c h1 h2
      simp only [ancZeroOne, Bool.and_eq_true, beq_iff_eq] at h1 h2 ⊢
      exact ⟨h1.1, h2.2⟩)
    (by
      intro a b h
      simp only [ancZeroOne, Bool.and_eq_true, beq_iff_eq] at h
      show a < b
      obtain ⟨rfl, rfl⟩ := h
      exact Nat.one_pos)
    0 (by decide)

/-- C2: view merge is idempotent — merging a repo whose current view is
`V` with another view equal to `V` over any common base `B` yields `V`. -/
theorem merge_view_idempotent (anc : CommitId → CommitId → Bool) (B V : View) :
    MutableRepo.merge_view anc V B V = V := by
  ext1
  case head_ids =>
    simp only [MutableRepo.merge_view]
    exact Finset.union_eq_left.mpr (Finset.sdiff_subset)
  case public_head_ids =>
    simp only [MutableRepo.merge_view]
    ext a
    simp only [Finset.mem_union, Finset.mem_sdiff]
    tauto
  case wc_commit_ids =>
    funext ws
    simp only [MutableRepo.merge_view, mergeWcAt]
    cases hb : B.wc_commit_ids ws with
    | none =>
      cases hv : V.wc_commit_ids ws <;> simp
    | some b =>
      simp
  case refs =>
    funext n
    simp only [MutableRepo.merge_view]
    by_cases hbo : B.refs n = V.refs n
    · simp [hbo]
    · have h1 : ¬ (V.refs n = B.refs n) := fun h => hbo h.symm
      simp [hbo, merge_ref_targets, h1]

/-- C3: the workspace-head cases of `merge_view` for a workspace present
in the base view: (a) the other side kept the base value or agrees with
self — self wins; (b) only the other side changed it — other wins;
(c) both sides changed it to different commits — self (left) wins;
(d) the other side removed the workspace — it is removed even if self
changed it. -/
theorem merge_view_wc_cases (anc : CommitId → CommitId → Bool)
    (self base other : View) (ws : WorkspaceId) (b : CommitId)
    (hb : base.wc_commit_ids ws = some b) :
    ((other.wc_commit_ids ws = some b ∨ other.wc_commit_ids ws = self.wc_commit_ids ws) →
      (MutableRepo.merge_view anc self base other).wc_commit_ids ws =
        self.wc_commit_ids ws) ∧
    (∀ oc, other.wc_commit_ids ws = some oc → oc ≠ b →
      self.wc_commit_ids ws = some b →
      (MutableRepo.merge_view anc self base other).wc_commit_ids ws = some oc) ∧
    (∀ oc, other.wc_commit_ids ws = some oc → oc ≠ b →
      self.wc_commit_ids ws ≠ some b → some oc ≠ self.wc_commit_ids ws →
      (MutableRepo.merge_view anc self base other).wc_commit_ids ws =
        self.wc_commit_ids ws) ∧
    (other.wc_commit_ids ws = none →
      (MutableRepo.merge_view anc self base other).wc_commit_ids ws = none) := by
  refine ⟨?_, ?_, ?_, ?_⟩
  · intro h
    simp [MutableRepo.merge_view, mergeWcAt, hb, h]
  · intro oc hoc hne hself
    simp only [MutableRepo.merge_view, mergeWcAt, hb, hoc, hself]
    simp [hne]
  · intro oc hoc hne hself hneq
    simp only [MutableRepo.merge_view, mergeWcAt, hb, hoc]
    have hos : ¬ (some oc = self.wc_commit_ids ws) := hneq
    have hsb : ¬ (self.wc_commit_ids ws = some b) := hself
    simp [hne, hos, hsb]
  · intro hnone
    simp only [MutableRepo.merge_view, mergeWcAt, hb, hnone]
    by_cases hself : self.wc_commit_ids ws = none
    · simp [hself]
    · have h1 : ¬ (none = self.wc_commit_ids ws) := fun h => hself h.symm
      simp [h1]

/-- A base view mapping workspace 0 to commit 7, for the C3 witness. -/
def viewBaseWc : View :=
  { head_ids := ∅
    public_head_ids := ∅
    wc_commit_ids := fun ws => if ws = 0 then some 7 else none
    refs := fun _ => none }

/-- An "other" view that removed workspace 0, for the C3 witness. -/
def viewOtherWc : View :=
  { head_ids := ∅
    public_head_ids := ∅
    wc_commit_ids := fun _ => none
    refs := fun _ => none }

/-- Witness for C3: with the other side removing workspace 0, the merge
removes it even though self moved it to commit 9. -/
theorem merge_view_wc_cases_witness :
    (MutableRepo.merge_view (fun _ _ => false)
        (View.set_wc_commit viewOtherWc 0 9) viewBaseWc viewOtherWc).wc_commit_ids 0 =
      none :=
  (merge_view_wc_cases (fun _ _ => false) (View.set_wc_commit viewOtherWc 0 9)
    viewBaseWc viewOtherWc 0 7 (by simp [viewBaseWc])).2.2.2 (by simp [viewOtherWc])

/-- C8: `set_wc_commit` returns the `RewriteRootCommit` error exactly
when the given commit id is the store's root commit id, and in that case
the view — in particular its `wc_commit_ids` map — is unchanged. -/
theorem set_wc_commit_root_error (root_commit_id : CommitId) (v : View)
    (workspace_id : WorkspaceId) (commit_id : CommitId) :
    ((MutableRepo.set_wc_commit root_commit_id v workspace_id commit_id).2 =
        some RewriteRootCommit.mk ↔ commit_id = root_commit_id) ∧
    ((MutableRepo.set_wc_commit root_commit_id v workspace_id commit_id).2.isSome →
      (MutableRepo.set_wc_commit root_commit_id v workspace_id commit_id).1 = v) := by
  constructor
  · constructor
    · intro h
      by_contra hne
      simp [MutableRepo.set_wc_commit, hne] at h
    · intro h
      simp [MutableRepo.set_wc_commit, h]
  · intro h
    by_cases heq : commit_id = root_commit_id
    · simp [MutableRepo.set_wc_commit, heq]
    · simp [MutableRepo.set_wc_commit, heq] at h

/-- Witness for C8: setting workspace 3's commit to the root id 0 errors
and leaves the view unchanged. -/
theorem set_wc_commit_root_error_witness :
    ((MutableRepo.set_wc_commit 0 viewTwoHeads 3 0).2 = some RewriteRootCommit.mk) ∧
    (MutableRepo.set_wc_commit 0 viewTwoHeads 3 0).1 = viewTwoHeads := by
  have h := set_wc_commit_root_error 0 viewTwoHeads 3 0
  exact ⟨h.1.mpr rfl, h.2 (by rw [h.1.mpr rfl]; rfl)⟩

/-! ## The prefix trie (repo.rs lines 1164-1326)

`Trie<I, V>` is a radix trie: each node holds a `key_prefix` (shortened
to the field name `pfx` below), an optional
value and a map from the next element to a child trie.  The source's
`HashMap<I, Box<Trie>>` becomes an association list with pairwise
distinct keys. -/

inductive Trie (I V : Type) where
  | node (pfx : List I) (value : Option V) (next_level : List (I × Trie I V))

/-- The `key_prefix` field of a trie node. -/
def Trie.pfxOf {I V : Type} : Trie I V → List I
  | .node pfx _ _ => pfx

/-- The empty trie, `Trie::new()`. -/
def Trie.emptyTrie {I V : Type} : Trie I V := .node [] none []

/-- Association-list lookup, modelling `HashMap::get`. -/
def lookupChild {I V : Type} [DecidableEq I] : List (I × Trie I V) → I → Option (Trie I V)
  | [], _ => none
  | (c', s) :: rest, c => if c' = c then some s else lookupChild rest c

/-- Association-list insert-or-replace, modelling `HashMap::entry` +
in-place mutation of the entry's value. -/
def updateChild {I V : Type} [DecidableEq I] :
    List (I × Trie I V) → I → Trie I V → List (I × Trie I V)
  | [], c, sub => [(c, sub)]
  | (c', s) :: rest, c, sub =>
    if c' = c then (c, sub) :: rest else (c', s) :: updateChild rest c sub

/-- Rust's `<[I]>::starts_with`: `listStartsWith key pfx` is true when
`key` starts with `pfx`. -/
def listStartsWith {I : Type} [DecidableEq I] : List I → List I → Bool
  | _, [] => true
  | [], _ :: _ => false
  | a :: as, b :: bs => decide (a = b) && listStartsWith as bs

/-- `Trie::len_common_prefix` (repo.rs lines 1200-1209): the number of
leading positions on which the two slices agree. -/
def lenCommonPfx {I : Type} [DecidableEq I] : List I → List I → Nat
  | a :: as, b :: bs => if a = b then lenCommonPfx as bs + 1 else 0
  | _, _ => 0

theorem lenCommonPfx_le_right {I : Type} [DecidableEq I] (a b : List I) :
    lenCommonPfx a b ≤ b.length := by
  induction a generalizing b with
  | nil => cases b <;> simp [lenCommonPfx]
  | cons x xs ih =>
    cases b with
    | nil => simp [lenCommonPfx]
    | cons y ys =>
      by_cases hxy : x = y
      · simpa [lenCommonPfx, hxy] using ih ys
      · simp [lenCommonPfx, hxy]

theorem startsWith_take_lcp {I : Type} [DecidableEq I] (a b : List I) :
    listStartsWith a (b.take (lenCommonPfx a b)) = true := by
  induction a generalizing b with
  | nil => cases b <;> simp [lenCommonPfx, listStartsWith]
  | cons x xs ih =>
    cases b with
    | nil => simp [lenCommonPfx, listStartsWith]
    | cons y ys =>
      by_cases hxy : x = y
      · simpa [lenCommonPfx, hxy, List.take_succ_cons, listStartsWith] using ih ys
      · simp [lenCommonPfx, hxy, listStartsWith]

/-- `Trie::get` (repo.rs lines 1246-1257). -/
def Trie.get {I V : Type} [DecidableEq I] : Trie I V → List I → Option V
  | .node pfx value next_level, key =>
    if listStartsWith key pfx then
      match h : key.drop pfx.length with
      | [] => value
      | c :: rest =>
        match lookupChild next_level c with
        | none => none
        | some subtrie => subtrie.get rest
    else none
termination_by t key => key.length
decreasing_by
  have := congrArg List.length h
  simp only [List.length_drop, List.length_cons] at this
  omega

/-- `Trie::insert` (repo.rs lines 1211-1244), returning the updated trie
together with the source's boolean result (whether the key was new).
The final `else` of the source restructures the node so that its prefix
becomes the common prefix of `key` and `key_prefix` and then re-enters
`insert`; the impossible case `lenCommonPfx key pfx ≥ pfx.length`
(excluded because `key` does not start with `pfx`) returns the node
unchanged. -/
def Trie.insert {I V : Type} [DecidableEq I] : Trie I V → List I → V → Trie I V × Bool
  | .node pfx value next_level, key, v =>
    if pfx.isEmpty && value.isNone && next_level.isEmpty then
      (.node key (some v) [], true)
    else if listStartsWith key pfx then
      match h : key.drop pfx.length with
      | [] => (.node pfx (some v) next_level, value.isNone)
      | next_char :: rest =>
        let sub := (lookupChild next_level next_char).getD Trie.emptyTrie
        let p := sub.insert rest v
        (.node pfx value (updateChild next_level next_char p.1), p.2)
    else
      let common := lenCommonPfx key pfx
      if hc : common < pfx.length then
        let new_trie : Trie I V := .node (pfx.drop (common + 1)) value next_level
        Trie.insert (.node (pfx.take common) none [(pfx.get ⟨common, hc⟩, new_trie)]) key v
      else
        (.node pfx value next_level, false)
termination_by t key v =>
  2 * key.length + (if listStartsWith key t.pfxOf then 0 else 1)
decreasing_by
  · rename_i hsw
    have hlen := congrArg List.length h
    simp only [List.length_drop, List.length_cons] at hlen
    simp only [Trie.pfxOf]
    rw [if_pos hsw]
    split <;> omega
  · rename_i hsw
    simp only [Trie.pfxOf]
    rw [if_neg hsw]
    simp only [startsWith_take_lcp, if_true]
    omega

/-- `Trie::shortest_unique_prefix_len` (repo.rs lines 1272-1325): the
shortest length of a prefix of `key` that corresponds to a subtrie that
is either empty or contains only a single element matching `key`
exactly; `key.len() + 1` when other keys extend `key`. -/
def Trie.shortest_unique_prefix_len {I V : Type} [DecidableEq I] :
    Trie I V → List I → Nat
  | .node pfx value next_level, key =>
    let common := lenCommonPfx key pfx
    if common < pfx.length then common + 1
    else
      -- self.key_prefix is a prefix of key
      match h : key.drop pfx.length with
      | [] =>
        if next_level.isEmpty then 0
        else
          -- The special case: there are keys in the trie for which the
          -- original key (from the first level of recursion) is a prefix.
          key.length + 1
      | first :: rest =>
        match lookupChild next_level first with
        | none => if next_level.isEmpty then pfx.length else pfx.length + 1
        | some next_trie =>
          match next_trie.shortest_unique_prefix_len rest with
          | 0 =>
            if next_level.length == 1 && value.isNone then 0
            else pfx.length + 1
          | n => pfx.length + n + 1
termination_by t key => key.length
decreasing_by
  have := congrArg List.length h
  simp only [List.length_drop, List.length_cons] at this
  omega

/-! ### Basic facts about `listStartsWith`, `lenCommonPfx` and the
association-list child maps -/

theorem startsWith_nil {I : Type} [DecidableEq I] (k : List I) :
    listStartsWith k [] = true := by
  cases k <;> rfl

theorem startsWith_iff_take {I : Type} [DecidableEq I] (k p : List I) :
    listStartsWith k p = true ↔ k.take p.length = p := by
  induction p generalizing k with
  | nil => simp [startsWith_nil]
  | cons b bs ih =>
    cases k with
    | nil => simp [listStartsWith]
    | cons a as =>
      simp only [listStartsWith, Bool.and_eq_true, decide_eq_true_eq, List.length_cons,
        List.take_succ_cons, List.cons.injEq, ih]

theorem startsWith_refl {I : Type} [DecidableEq I] (k : List I) :
    listStartsWith k k = true := by
  rw [startsWith_iff_take, List.take_length]

theorem startsWith_append {I : Type} [DecidableEq I] (p r : List I) :
    listStartsWith (p ++ r) p = true := by
  rw [startsWith_iff_take, List.take_left]

theorem startsWith_length_le {I : Type} [DecidableEq I] {k p : List I}
    (h : listStartsWith k p = true) : p.length ≤ k.length := by
  rw [startsWith_iff_take] at h
  have := congrArg List.length h
  simp only [List.length_take] at this
  omega

theorem eq_append_drop_of_startsWith {I : Type} [DecidableEq I] {k p : List I}
    (h : listStartsWith k p = true) : k = p ++ k.drop p.length := by
  rw [startsWith_iff_take] at h
  conv_lhs => rw [← List.take_append_drop p.length k]
  rw [h]

theorem eq_of_startsWith_drop_nil {I : Type} [DecidableEq I] {k p : List I}
    (h : listStartsWith k p = true) (h2 : k.drop p.length = []) : k = p := by
  have := eq_append_drop_of_startsWith h
  rw [h2, List.append_nil] at this
  exact this

theorem lcp_eq_of_startsWith {I : Type} [DecidableEq I] {k p : List I}
    (h : listStartsWith k p = true) : lenCommonPfx k p = p.length := by
  induction p generalizing k with
  | nil => cases k <;> simp [lenCommonPfx]
  | cons b bs ih =>
    cases k with
    | nil => simp [listStartsWith] at h
    | cons a as =>
      simp only [listStartsWith, Bool.and_eq_true, decide_eq_true_eq] at h
      simp [lenCommonPfx, h.1, ih h.2]

theorem lcp_lt_of_not_startsWith {I : Type} [DecidableEq I] {k p : List I}
    (h : listStartsWith k p = false) : lenCommonPfx k p < p.length := by
  rcases Nat.lt_or_ge (lenCommonPfx k p) p.length with hlt | hge
  · exact hlt
  · exfalso
    have heq : lenCommonPfx k p = p.length :=
      le_antisymm (lenCommonPfx_le_right k p) hge
    have := startsWith_take_lcp k p
    rw [heq, List.take_length] at this
    rw [this] at h
    cases h

theorem startsWith_append_right_cancel {I : Type} [DecidableEq I] (p k q : List I) :
    listStartsWith (p ++ k) (p ++ q) = listStartsWith k q := by
  induction p with
  | nil => rfl
  | cons a as ih => simp [listStartsWith, ih]

theorem lookupChild_updateChild_self {I V : Type} [DecidableEq I]
    (l : List (I × Trie I V)) (c : I) (s : Trie I V) :
    lookupChild (updateChild l c s) c = some s := by
  induction l with
  | nil => simp [updateChild, lookupChild]
  | cons q rest ih =>
    obtain ⟨c', s'⟩ := q
    by_cases hc : c' = c
    · simp [updateChild, hc, lookupChild]
    · simp [updateChild, hc, lookupChild, ih]

theorem lookupChild_updateChild_other {I V : Type} [DecidableEq I]
    {l : List (I × Trie I V)} {c c' : I} (s : Trie I V) (hne : c' ≠ c) :
    lookupChild (updateChild l c s) c' = lookupChild l c' := by
  have hcc : ¬ (c = c') := fun h => hne h.symm
  induction l with
  | nil => simp [updateChild, lookupChild, hcc]
  | cons q rest ih =>
    obtain ⟨c'', s''⟩ := q
    by_cases hc : c'' = c
    · subst hc
      simp [updateChild, lookupChild, hcc]
    · simp only [updateChild, if_neg hc, lookupChild]
      by_cases hc2 : c'' = c' <;> simp [hc2, ih]

theorem mem_updateChild {I V : Type} [DecidableEq I]
    {l : List (I × Trie I V)} {c : I} {s : Trie I V} {q : I × Trie I V}
    (h : q ∈ updateChild l c s) : q = (c, s) ∨ q ∈ l := by
  induction l with
  | nil => simpa [updateChild] using h
  | cons q' rest ih =>
    obtain ⟨c', s'⟩ := q'
    by_cases hc : c' = c
    · simp only [updateChild, if_pos hc, List.mem_cons] at h
      rcases h with h | h
      · exact Or.inl h
      · exact Or.inr (List.mem_cons_of_mem _ h)
    · simp only [updateChild, if_neg hc, List.mem_cons] at h
      rcases h with h | h
      · exact Or.inr (by simp [h])
      · rcases ih h with h' | h'
        · exact Or.inl h'
        · exact Or.inr (List.mem_cons_of_mem _ h')

theorem pairwise_updateChild {I V : Type} [DecidableEq I]
    {l : List (I × Trie I V)} {c : I} {s : Trie I V}
    (h : l.Pairwise (fun a b => a.1 ≠ b.1)) :
    (updateChild l c s).Pairwise (fun a b => a.1 ≠ b.1) := by
  induction l with
  | nil => simp [updateChild]
  | cons q rest ih =>
    obtain ⟨c', s'⟩ := q
    rw [List.pairwise_cons] at h
    by_cases hc : c' = c
    · subst hc
      rw [updateChild, if_pos rfl, List.pairwise_cons]
      exact ⟨h.1, h.2⟩
    · rw [updateChild, if_neg hc, List.pairwise_cons]
      refine ⟨?_, ih h.2⟩
      intro q hq
      rcases mem_updateChild hq with rfl | hq'
      · exact hc
      · exact h.1 q hq'

theorem lookupChild_mem {I V : Type} [DecidableEq I]
    {l : List (I × Trie I V)} {c : I} {s : Trie I V}
    (h : lookupChild l c = some s) : (c, s) ∈ l := by
  induction l with
  | nil => simp [lookupChild] at h
  | cons q rest ih =>
    obtain ⟨c', s'⟩ := q
    by_cases hc : c' = c
    · subst hc
      simp only [lookupChild] at h
      rw [if_pos trivial] at h
      rw [Option.some.injEq] at h
      subst h
      exact List.mem_cons_self _ _
    · simp only [lookupChild, if_neg hc] at h
      exact List.mem_cons_of_mem _ (ih h)

theorem exists_fst_ne {I V : Type} {l : List (I × Trie I V)}
    (hp : l.Pairwise (fun a b => a.1 ≠ b.1)) (hlen : 2 ≤ l.length) (c : I) :
    ∃ q ∈ l, q.1 ≠ c := by
  match l, hlen with
  | q1 :: q2 :: t, _ =>
    rw [List.pairwise_cons] at hp
    have h12 : q1.1 ≠ q2.1 := hp.1 q2 (List.mem_cons_self _ _)
    by_cases h1 : q1.1 = c
    · exact ⟨q2, by simp, by rw [← h1]; exact fun h => h12 h.symm⟩
    · exact ⟨q1, by simp, h1⟩


/-! ### Computation lemmas for `Trie.get` -/

theorem startsWith_of_startsWith_append {I : Type} [DecidableEq I] {k a b : List I}
    (h : listStartsWith k (a ++ b) = true) : listStartsWith k a = true := by
  rw [startsWith_iff_take] at h ⊢
  have hlen : a.length ≤ (a ++ b).length := by simp
  have : k.take a.length = (k.take (a ++ b).length).take a.length := by
    rw [List.take_take, min_eq_left hlen]
  rw [this, h, List.take_append_eq_append_take, List.take_length, Nat.sub_self,
    List.take_zero, List.append_nil]

theorem get_not_startsWith {I V : Type} [DecidableEq I] {p : List I} {value : Option V}
    {ch : List (I × Trie I V)} {k : List I} (h : listStartsWith k p = false) :
    (Trie.node p value ch).get k = none := by
  rw [Trie.get]
  simp [h]

theorem get_at_pfx {I V : Type} [DecidableEq I] (p : List I) (value : Option V)
    (ch : List (I × Trie I V)) :
    (Trie.node p value ch).get p = value := by
  rw [Trie.get, if_pos (startsWith_refl p)]
  split
  · rfl
  · rename_i c rest h
    rw [List.drop_length] at h
    cases h

theorem get_append_cons {I V : Type} [DecidableEq I] (p : List I) (value : Option V)
    (ch : List (I × Trie I V)) (c : I) (r : List I) :
    (Trie.node p value ch).get (p ++ c :: r) =
      match lookupChild ch c with
      | none => none
      | some subtrie => subtrie.get r := by
  rw [Trie.get, if_pos (startsWith_append p (c :: r))]
  split
  · rename_i h
    rw [List.drop_left] at h
    cases h
  · rename_i c' rest' h
    rw [List.drop_left] at h
    injection h with h1 h2
    subst h1
    subst h2
    rfl

theorem get_some_cases {I V : Type} [DecidableEq I] {p : List I} {value : Option V}
    {ch : List (I × Trie I V)} {k : List I} {v : V}
    (h : (Trie.node p value ch).get k = some v) :
    (k = p ∧ value = some v) ∨
      ∃ c r sub, k = p ++ c :: r ∧ lookupChild ch c = some sub ∧ sub.get r = some v := by
  by_cases hsw : listStartsWith k p = true
  · have hk := eq_append_drop_of_startsWith hsw
    cases hdrop : k.drop p.length with
    | nil =>
      left
      have hkp : k = p := eq_of_startsWith_drop_nil hsw hdrop
      rw [hkp, get_at_pfx] at h
      exact ⟨hkp, h⟩
    | cons c r =>
      right
      rw [hdrop] at hk
      rw [hk, get_append_cons] at h
      cases hlk : lookupChild ch c with
      | none => rw [hlk] at h; cases h
      | some sub =>
        rw [hlk] at h
        exact ⟨c, r, sub, hk, hlk, h⟩
  · rw [get_not_startsWith (Bool.eq_false_iff.mpr hsw)] at h
    cases h

/-- Restructuring a node by splitting its prefix at any point preserves
`get` (the split step of `Trie::insert`: "The trie is restructured but
equivalent to what it was before"). -/
theorem get_split_node {I V : Type} [DecidableEq I] (p1 : List I) (d : I) (p2 : List I)
    (value : Option V) (ch : List (I × Trie I V)) (key : List I) :
    (Trie.node p1 none [(d, Trie.node p2 value ch)]).get key =
      (Trie.node (p1 ++ d :: p2) value ch).get key := by
  by_cases h1 : listStartsWith key p1 = true
  · have hk := eq_append_drop_of_startsWith h1
    cases hdrop : key.drop p1.length with
    | nil =>
      have hkp : key = p1 := eq_of_startsWith_drop_nil h1 hdrop
      subst hkp
      rw [get_at_pfx, get_not_startsWith]
      rw [Bool.eq_false_iff]
      intro hsw
      have := startsWith_length_le hsw
      simp only [List.length_append, List.length_cons] at this
      omega
    | cons e r =>
      rw [hdrop] at hk
      by_cases hed : e = d
      · subst hed
        rw [hk, get_append_cons]
        simp only [lookupChild]
        rw [if_pos trivial]
        show (Trie.node p2 value ch).get r =
          (Trie.node (p1 ++ e :: p2) value ch).get (p1 ++ e :: r)
        by_cases h2 : listStartsWith r p2 = true
        · have hr := eq_append_drop_of_startsWith h2
          cases hdrop2 : r.drop p2.length with
          | nil =>
            have hrp : r = p2 := eq_of_startsWith_drop_nil h2 hdrop2
            subst hrp
            rw [get_at_pfx, get_at_pfx]
          | cons f r2 =>
            rw [hdrop2] at hr
            rw [hr, get_append_cons]
            have happ : p1 ++ e :: (p2 ++ f :: r2) = (p1 ++ e :: p2) ++ f :: r2 := by simp
            rw [happ, get_append_cons]
        · have h2' : listStartsWith r p2 = false := Bool.eq_false_iff.mpr h2
          have hfalse : listStartsWith (p1 ++ e :: r) (p1 ++ e :: p2) = false := by
            have hcan : listStartsWith (p1 ++ e :: r) (p1 ++ e :: p2) =
                listStartsWith r p2 := by
              have := startsWith_append_right_cancel (p1 ++ [e]) r p2
              simpa using this
            rw [hcan, h2']
          rw [get_not_startsWith h2', get_not_startsWith hfalse]
      · have hfalse : listStartsWith (p1 ++ e :: r) (p1 ++ d :: p2) = false := by
          rw [Bool.eq_false_iff]
          intro hsw
          have hcan : listStartsWith (p1 ++ e :: r) (p1 ++ d :: p2) =
              listStartsWith (e :: r) (d :: p2) := startsWith_append_right_cancel p1 _ _
          rw [hcan] at hsw
          simp only [listStartsWith, Bool.and_eq_true, decide_eq_true_eq] at hsw
          exact hed hsw.1
        rw [hk, get_append_cons, get_not_startsWith hfalse]
        simp only [lookupChild]
        rw [if_neg (fun h => hed h.symm)]
  · have h1' : listStartsWith key p1 = false := Bool.eq_false_iff.mpr h1
    rw [get_not_startsWith h1', get_not_startsWith]
    rw [Bool.eq_false_iff]
    intro hsw
    exact h1 (startsWith_of_startsWith_append hsw)

/-! ### Computation lemmas for `Trie.insert` -/

theorem insert_empty_node {I V : Type} [DecidableEq I] (pfx : List I) (value : Option V)
    (nl : List (I × Trie I V)) (key : List I) (v : V)
    (hcond : (pfx.isEmpty && value.isNone && nl.isEmpty) = true) :
    (Trie.node pfx value nl).insert key v = (.node key (some v) [], true) := by
  rw [Trie.insert, if_pos hcond]

theorem insert_at_pfx {I V : Type} [DecidableEq I] {pfx : List I} {value : Option V}
    {nl : List (I × Trie I V)} {key : List I} (v : V)
    (hcond : ¬ (pfx.isEmpty && value.isNone && nl.isEmpty) = true)
    (hsw : listStartsWith key pfx = true) (hdrop : key.drop pfx.length = []) :
    (Trie.node pfx value nl).insert key v = (.node pfx (some v) nl, value.isNone) := by
  rw [Trie.insert, if_neg hcond, if_pos hsw]
  split
  · rfl
  · rename_i c rest h
    rw [hdrop] at h
    cases h

theorem insert_child {I V : Type} [DecidableEq I] {pfx : List I} {value : Option V}
    {nl : List (I × Trie I V)} {key : List I} (v : V) {c : I} {rest : List I}
    (hcond : ¬ (pfx.isEmpty && value.isNone && nl.isEmpty) = true)
    (hsw : listStartsWith key pfx = true) (hdrop : key.drop pfx.length = c :: rest) :
    (Trie.node pfx value nl).insert key v =
      (.node pfx value
        (updateChild nl c (((lookupChild nl c).getD Trie.emptyTrie).insert rest v).1),
       (((lookupChild nl c).getD Trie.emptyTrie).insert rest v).2) := by
  rw [Trie.insert, if_neg hcond, if_pos hsw]
  split
  · rename_i h
    rw [hdrop] at h
    cases h
  · rename_i c' rest' h
    rw [hdrop] at h
    injection h with h1 h2
    subst h1
    subst h2
    rfl

theorem insert_split {I V : Type} [DecidableEq I] {pfx : List I} {value : Option V}
    {nl : List (I × Trie I V)} {key : List I} (v : V)
    (hcond : ¬ (pfx.isEmpty && value.isNone && nl.isEmpty) = true)
    (hsw : ¬ listStartsWith key pfx = true)
    (hc : lenCommonPfx key pfx < pfx.length) :
    (Trie.node pfx value nl).insert key v =
      (Trie.node (pfx.take (lenCommonPfx key pfx)) none
        [(pfx.get ⟨lenCommonPfx key pfx, hc⟩,
          Trie.node (pfx.drop (lenCommonPfx key pfx + 1)) value nl)]).insert key v := by
  rw [Trie.insert, if_neg hcond, if_neg hsw, dif_pos hc]

/-- The prefix of a node decomposed at a position below its length. -/
theorem pfx_decomposition {I : Type} (pfx : List I) (n : Nat) (hn : n < pfx.length) :
    pfx = pfx.take n ++ pfx.get ⟨n, hn⟩ :: pfx.drop (n + 1) := by
  conv_lhs => rw [← List.take_append_drop n pfx]
  congr 1
  exact List.drop_eq_get_cons hn

/-- The get of an entirely empty trie node is `none` everywhere. -/
theorem get_empty_node {I V : Type} [DecidableEq I] (key : List I) :
    (Trie.node ([] : List I) (none : Option V) []).get key = none := by
  cases key with
  | nil => rw [get_at_pfx]
  | cons c r =>
    have : (c :: r : List I) = [] ++ c :: r := rfl
    rw [this, get_append_cons]
    rfl

/-- The get of a one-key trie node at any other key is `none`. -/
theorem get_singleton_ne {I V : Type} [DecidableEq I] {key key' : List I} (v : V)
    (hne : key' ≠ key) : (Trie.node key (some v) []).get key' = none := by
  by_cases hsw : listStartsWith key' key = true
  · cases hdrop : key'.drop key.length with
    | nil => exact absurd (eq_of_startsWith_drop_nil hsw hdrop) hne
    | cons c r =>
      have hk := eq_append_drop_of_startsWith hsw
      rw [hdrop] at hk
      rw [hk, get_append_cons]
      rfl
  · exact get_not_startsWith (Bool.eq_false_iff.mpr hsw)

/-- C10, first half as a lemma: after `insert key v`, `get key` returns
`some v`, on every trie. -/
theorem get_insert_self {I V : Type} [DecidableEq I] (t : Trie I V) (key : List I) (v : V) :
    ((t.insert key v).1).get key = some v := by
  induction t, key, v using Trie.insert.induct with
  | case1 pfx value nl key v hcond =>
    rw [insert_empty_node _ _ _ _ _ hcond]
    exact get_at_pfx _ _ _
  | case2 pfx value nl key v hcond hsw hdrop =>
    rw [insert_at_pfx _ hcond hsw hdrop]
    have hkp : key = pfx := eq_of_startsWith_drop_nil hsw hdrop
    rw [hkp]
    exact get_at_pfx _ _ _
  | case3 pfx value nl key v hcond hsw c rest hdrop sub ih =>
    rw [insert_child _ hcond hsw hdrop]
    have hk : key = pfx ++ c :: rest := by
      have h := eq_append_drop_of_startsWith hsw
      rw [hdrop] at h
      exact h
    rw [hk, get_append_cons, lookupChild_updateChild_self]
    exact ih
  | case4 pfx value nl key v hcond hsw common hlt new_trie ih =>
    rw [insert_split _ hcond hsw hlt]
    exact ih
  | case5 pfx value nl key v hcond hsw common hge =>
    exact absurd (lcp_lt_of_not_startsWith (Bool.eq_false_iff.mpr hsw)) hge

/-- C10, second half as a lemma: `insert key v` does not change `get` at
any other key. -/
theorem get_insert_other {I V : Type} [DecidableEq I] (t : Trie I V) (key : List I) (v : V) :
    ∀ key', key' ≠ key → ((t.insert key v).1).get key' = t.get key' := by
  induction t, key, v using Trie.insert.induct with
  | case1 pfx value nl key v hcond =>
    intro key' hne
    simp only [Bool.and_eq_true, List.isEmpty_iff, Option.isNone_iff_eq_none] at hcond
    obtain ⟨⟨hp, hv⟩, hn⟩ := hcond
    subst hp
    subst hv
    subst hn
    rw [insert_empty_node _ _ _ _ _ (by rfl)]
    rw [get_singleton_ne _ hne, get_empty_node]
  | case2 pfx value nl key v hcond hsw hdrop =>
    intro key' hne
    have hkp : key = pfx := eq_of_startsWith_drop_nil hsw hdrop
    subst hkp
    rw [insert_at_pfx _ hcond hsw hdrop]
    by_cases hsw' : listStartsWith key' key = true
    · cases hdrop' : key'.drop key.length with
      | nil => exact absurd (eq_of_startsWith_drop_nil hsw' hdrop') hne
      | cons c r =>
        have hk' := eq_append_drop_of_startsWith hsw'
        rw [hdrop'] at hk'
        rw [hk', get_append_cons, get_append_cons]
    · have h := Bool.eq_false_iff.mpr hsw'
      rw [get_not_startsWith h, get_not_startsWith h]
  | case3 pfx value nl key v hcond hsw c rest hdrop sub ih =>
    intro key' hne
    have hk : key = pfx ++ c :: rest := by
      have h := eq_append_drop_of_startsWith hsw
      rw [hdrop] at h
      exact h
    rw [insert_child _ hcond hsw hdrop]
    by_cases hsw' : listStartsWith key' pfx = true
    · cases hdrop' : key'.drop pfx.length with
      | nil =>
        have hkp' : key' = pfx := eq_of_startsWith_drop_nil hsw' hdrop'
        rw [hkp', get_at_pfx, get_at_pfx]
      | cons c' r' =>
        have hk' := eq_append_drop_of_startsWith hsw'
        rw [hdrop'] at hk'
        rw [hk', get_append_cons, get_append_cons]
        by_cases hcc : c' = c
        · subst hcc
          rw [lookupChild_updateChild_self]
          have hrr : r' ≠ rest := by
            intro hr
            apply hne
            rw [hk', hk, hr]
          show (((lookupChild nl c').getD Trie.emptyTrie).insert rest v).1.get r' =
            match lookupChild nl c' with
            | none => none
            | some subtrie => subtrie.get r'
          have hstep : (((lookupChild nl c').getD Trie.emptyTrie).insert rest v).1.get r' =
              ((lookupChild nl c').getD Trie.emptyTrie).get r' := ih r' hrr
          rw [hstep]
          cases lookupChild nl c' with
          | none => simp [Trie.emptyTrie, get_empty_node]
          | some s => simp
        · rw [lookupChild_updateChild_other _ hcc]
    · have h := Bool.eq_false_iff.mpr hsw'
      rw [get_not_startsWith h, get_not_startsWith h]
  | case4 pfx value nl key v hcond hsw common hlt new_trie ih =>
    intro key' hne
    rw [insert_split _ hcond hsw hlt, ih key' hne, get_split_node]
    rw [← pfx_decomposition pfx (lenCommonPfx key pfx) hlt]
  | case5 pfx value nl key v hcond hsw common hge =>
    exact absurd (lcp_lt_of_not_startsWith (Bool.eq_false_iff.mpr hsw)) hge

/-- C10: trie insert/get round trip — immediately after `t.insert key v`,
`get key` returns `some v`, and the value of every other key present
before the insert is unchanged. -/
theorem trie_insert_get_round_trip {I V : Type} [DecidableEq I]
    (t : Trie I V) (key : List I) (v : V) :
    ((t.insert key v).1).get key = some v ∧
      ∀ key' w, key' ≠ key → t.get key' = some w →
        ((t.insert key v).1).get key' = some w := by
  refine ⟨get_insert_self t key v, ?_⟩
  intro key' w hne hw
  rw [get_insert_other t key v key' hne, hw]

/-- Witness for C10 on a concrete two-key trie. -/
theorem trie_insert_get_round_trip_witness :
    (((Trie.emptyTrie.insert [0, 1] 10).1.insert ([0, 2, 3] : List Nat) (20 : Nat)).1).get
        [0, 2, 3] = some 20 ∧
      (((Trie.emptyTrie.insert [0, 1] 10).1.insert ([0, 2, 3] : List Nat) (20 : Nat)).1).get
        [0, 1] = some 10 := by
  have h := trie_insert_get_round_trip (Trie.emptyTrie.insert [0, 1] 10).1
    ([0, 2, 3] : List Nat) (20 : Nat)
  refine ⟨h.1, h.2 [0, 1] 10 (by decide) ?_⟩
  exact (trie_insert_get_round_trip Trie.emptyTrie [0, 1] 10).1

/-! ### Well-formedness of built tries

`HashMap` keys are distinct, and `Trie::insert` only ever creates child
subtries that contain at least one key (`or_default` immediately
followed by an insertion; splits move a nonempty node down).  `Trie.WF`
captures exactly this. -/

inductive Trie.WF {I V : Type} [DecidableEq I] : Trie I V → Prop where
  | node : ∀ (pfx : List I) (value : Option V) (next_level : List (I × Trie I V)),
      next_level.Pairwise (fun a b => a.1 ≠ b.1) →
      (∀ p ∈ next_level, Trie.WF p.2) →
      (∀ p ∈ next_level, ∃ k, ((p.2 : Trie I V).get k).isSome = true) →
      Trie.WF (.node pfx value next_level)

theorem WF_pairwise {I V : Type} [DecidableEq I] {pfx : List I} {value : Option V}
    {nl : List (I × Trie I V)} (h : (Trie.node pfx value nl).WF) :
    nl.Pairwise (fun a b => a.1 ≠ b.1) := by
  cases h with
  | node _ _ _ h1 _ _ => exact h1

theorem WF_children {I V : Type} [DecidableEq I] {pfx : List I} {value : Option V}
    {nl : List (I × Trie I V)} (h : (Trie.node pfx value nl).WF) :
    ∀ p ∈ nl, (p.2 : Trie I V).WF := by
  cases h with
  | node _ _ _ _ h2 _ => exact h2

theorem WF_children_key {I V : Type} [DecidableEq I] {pfx : List I} {value : Option V}
    {nl : List (I × Trie I V)} (h : (Trie.node pfx value nl).WF) :
    ∀ p ∈ nl, ∃ k, ((p.2 : Trie I V).get k).isSome = true := by
  cases h with
  | node _ _ _ _ _ h3 => exact h3

theorem WF_emptyTrie {I V : Type} [DecidableEq I] : (Trie.emptyTrie : Trie I V).WF := by
  refine Trie.WF.node _ _ _ (by simp) ?_ ?_ <;> intro p hp <;> cases hp

/-- `insert` preserves well-formedness, on well-formed tries that are
the empty trie or have at least one key. -/
theorem insert_WF {I V : Type} [DecidableEq I] (t : Trie I V) (key : List I) (v : V) :
    t.WF → (t = Trie.emptyTrie ∨ ∃ k, (t.get k).isSome = true) →
    ((t.insert key v).1).WF := by
  induction t, key, v using Trie.insert.induct with
  | case1 pfx value nl key v hcond =>
    intro _ _
    rw [insert_empty_node _ _ _ _ _ hcond]
    refine Trie.WF.node _ _ _ (by simp) ?_ ?_ <;> intro p hp <;> cases hp
  | case2 pfx value nl key v hcond hsw hdrop =>
    intro hwf _
    rw [insert_at_pfx _ hcond hsw hdrop]
    exact Trie.WF.node _ _ _ (WF_pairwise hwf) (WF_children hwf) (WF_children_key hwf)
  | case3 pfx value nl key v hcond hsw c rest hdrop sub ih =>
    intro hwf _
    rw [insert_child _ hcond hsw hdrop]
    have hsub : ((lookupChild nl c).getD Trie.emptyTrie).WF ∧
        ((lookupChild nl c).getD Trie.emptyTrie = Trie.emptyTrie ∨
          ∃ k, (((lookupChild nl c).getD Trie.emptyTrie).get k).isSome = true) := by
      cases hlk : lookupChild nl c with
      | none => exact ⟨WF_emptyTrie, Or.inl rfl⟩
      | some s =>
        have hmem := lookupChild_mem hlk
        exact ⟨WF_children hwf _ hmem, Or.inr (WF_children_key hwf _ hmem)⟩
    refine Trie.WF.node _ _ _ (pairwise_updateChild (WF_pairwise hwf)) ?_ ?_
    · intro p hp
      rcases mem_updateChild hp with rfl | hp'
      · exact ih hsub.1 hsub.2
      · exact WF_children hwf _ hp'
    · intro p hp
      rcases mem_updateChild hp with rfl | hp'
      · exact ⟨rest, by rw [get_insert_self]; rfl⟩
      · exact WF_children_key hwf _ hp'
  | case4 pfx value nl key v hcond hsw common hlt new_trie ih =>
    intro hwf hne
    rw [insert_split _ hcond hsw hlt]
    have hinner : (Trie.node (pfx.drop (common + 1)) value nl).WF :=
      Trie.WF.node _ _ _ (WF_pairwise hwf) (WF_children hwf) (WF_children_key hwf)
    have hnonempty : ∃ k, ((Trie.node pfx value nl).get k).isSome = true := by
      rcases hne with hemp | hne
      · exfalso
        apply hcond
        rw [Trie.emptyTrie] at hemp
        injection hemp with h1 h2 h3
        subst h1
        subst h2
        subst h3
        rfl
      · exact hne
    obtain ⟨k0, hk0⟩ := hnonempty
    have hsplit : (Trie.node (pfx.take common) none
        [(pfx.get ⟨common, hlt⟩, Trie.node (pfx.drop (common + 1)) value nl)]).get k0 =
        (Trie.node pfx value nl).get k0 := by
      conv_rhs => rw [pfx_decomposition pfx common hlt]
      exact get_split_node _ _ _ _ _ _
    have hinner_key : ∃ k, ((Trie.node (pfx.drop (common + 1)) value nl).get k).isSome
        = true := by
      rw [← hsplit] at hk0
      rw [Option.isSome_iff_exists] at hk0
      obtain ⟨w, hw⟩ := hk0
      rcases get_some_cases hw with ⟨_, hv⟩ | ⟨c, r, s, hkeq, hlk, hget⟩
      · cases hv
      · simp only [lookupChild] at hlk
        split at hlk
        · rename_i hcd
          rw [Option.some.injEq] at hlk
          subst hlk
          exact ⟨r, by rw [hget]; rfl⟩
        · cases hlk
    refine ih ?_ (Or.inr ?_)
    · refine Trie.WF.node _ _ _ (by simp) ?_ ?_
      · intro p hp
        rw [List.mem_singleton] at hp
        subst hp
        exact hinner
      · intro p hp
        rw [List.mem_singleton] at hp
        subst hp
        exact hinner_key
    · obtain ⟨k1, hk1⟩ := hinner_key
      refine ⟨pfx.take common ++ pfx.get ⟨common, hlt⟩ :: k1, ?_⟩
      rw [get_append_cons]
      simp only [lookupChild]
      rw [if_pos trivial]
      exact hk1
  | case5 pfx value nl key v hcond hsw common hge =>
    exact absurd (lcp_lt_of_not_startsWith (Bool.eq_false_iff.mpr hsw)) hge

/-! ### Helper lemmas towards the correctness of
`shortest_unique_prefix_len` -/

theorem startsWith_of_get_isSome {I V : Type} [DecidableEq I] {pfx : List I}
    {value : Option V} {nl : List (I × Trie I V)} {key : List I}
    (h : ((Trie.node pfx value nl).get key).isSome = true) :
    listStartsWith key pfx = true := by
  by_contra hsw
  rw [get_not_startsWith (Bool.eq_false_iff.mpr hsw)] at h
  cases h

theorem lookupChild_eq_of_mem {I V : Type} [DecidableEq I]
    {l : List (I × Trie I V)} {c : I} {s : Trie I V}
    (hp : l.Pairwise (fun a b => a.1 ≠ b.1)) (hmem : (c, s) ∈ l) :
    lookupChild l c = some s := by
  induction l with
  | nil => cases hmem
  | cons q rest ih =>
    obtain ⟨c', s'⟩ := q
    rw [List.pairwise_cons] at hp
    rcases List.mem_cons.mp hmem with heq | hmem'
    · injection heq with h1 h2
      subst h1
      subst h2
      simp [lookupChild]
    · have hne : c' ≠ c := by
        have := hp.1 (c, s) hmem'
        simpa using this
      simp only [lookupChild, if_neg hne]
      exact ih hp.2 hmem'

theorem take_append_le {I : Type} {p u : List I} {m : Nat} (hm : m ≤ p.length) :
    (p ++ u).take m = p.take m := by
  rw [List.take_append_eq_append_take]
  rw [Nat.sub_eq_zero_of_le hm, List.take_zero, List.append_nil]

theorem take_append_cons {I : Type} (p : List I) (c : I) (u : List I) (j : Nat) :
    (p ++ c :: u).take (p.length + 1 + j) = p ++ c :: u.take j := by
  rw [List.take_append_eq_append_take]
  have h1 : p.length ≤ p.length + 1 + j := by omega
  rw [List.take_all_of_le h1]
  have h2 : p.length + 1 + j - p.length = j + 1 := by omega
  rw [h2, List.take_succ_cons]

theorem key_of_drop_cons {I V : Type} [DecidableEq I] {pfx : List I} {value : Option V}
    {nl : List (I × Trie I V)} {key : List I} {c : I} {rest : List I}
    (h : ((Trie.node pfx value nl).get key).isSome = true)
    (hdrop : key.drop pfx.length = c :: rest) : key = pfx ++ c :: rest := by
  have hk := eq_append_drop_of_startsWith (startsWith_of_get_isSome h)
  rw [hdrop] at hk
  exact hk

theorem value_some_of_drop_nil {I V : Type} [DecidableEq I] {pfx : List I}
    {value : Option V} {nl : List (I × Trie I V)} {key : List I}
    (h : ((Trie.node pfx value nl).get key).isSome = true)
    (hdrop : key.drop pfx.length = []) : key = pfx ∧ value.isSome = true := by
  have hkp : key = pfx := eq_of_startsWith_drop_nil (startsWith_of_get_isSome h) hdrop
  subst hkp
  rw [get_at_pfx] at h
  exact ⟨rfl, h⟩

theorem sub_get_of_node_get {I V : Type} [DecidableEq I] {pfx : List I} {value : Option V}
    {nl : List (I × Trie I V)} {key : List I} {c : I} {rest : List I} {sub : Trie I V}
    (h : ((Trie.node pfx value nl).get key).isSome = true)
    (hdrop : key.drop pfx.length = c :: rest)
    (hlk : lookupChild nl c = some sub) : (sub.get rest).isSome = true := by
  have hk := key_of_drop_cons h hdrop
  rw [hk, get_append_cons, hlk] at h
  exact h

theorem node_get_child_isSome {I V : Type} [DecidableEq I] {pfx : List I}
    {value : Option V} {nl : List (I × Trie I V)} {c : I} {r : List I} {sub : Trie I V}
    (hlk : lookupChild nl c = some sub) (h : (sub.get r).isSome = true) :
    ((Trie.node pfx value nl).get (pfx ++ c :: r)).isSome = true := by
  rw [get_append_cons, hlk]
  exact h

/-! ### Computation lemmas for `shortest_unique_prefix_len` -/

theorem supl_drop_nil {I V : Type} [DecidableEq I] {pfx : List I} {value : Option V}
    {nl : List (I × Trie I V)} {key : List I}
    (hlt : ¬ lenCommonPfx key pfx < pfx.length) (hdrop : key.drop pfx.length = []) :
    (Trie.node pfx value nl).shortest_unique_prefix_len key =
      if nl.isEmpty then 0 else key.length + 1 := by
  rw [Trie.shortest_unique_prefix_len]
  simp only [if_neg hlt]
  split
  · rfl
  · rename_i c rest h
    rw [hdrop] at h
    cases h

theorem supl_child {I V : Type} [DecidableEq I] {pfx : List I} {value : Option V}
    {nl : List (I × Trie I V)} {key : List I} {c : I} {rest : List I} {sub : Trie I V}
    (hlt : ¬ lenCommonPfx key pfx < pfx.length)
    (hdrop : key.drop pfx.length = c :: rest) (hlk : lookupChild nl c = some sub) :
    (Trie.node pfx value nl).shortest_unique_prefix_len key =
      match sub.shortest_unique_prefix_len rest with
      | 0 => if nl.length == 1 && value.isNone then 0 else pfx.length + 1
      | n => pfx.length + n + 1 := by
  rw [Trie.shortest_unique_prefix_len]
  simp only [if_neg hlt]
  split
  · rename_i h
    rw [hdrop] at h
    cases h
  · rename_i c' rest' h
    rw [hdrop] at h
    injection h with h1 h2
    subst h1
    subst h2
    rw [hlk]

theorem supl_child_zero {I V : Type} [DecidableEq I] {pfx : List I} {value : Option V}
    {nl : List (I × Trie I V)} {key : List I} {c : I} {rest : List I} {sub : Trie I V}
    (hlt : ¬ lenCommonPfx key pfx < pfx.length)
    (hdrop : key.drop pfx.length = c :: rest) (hlk : lookupChild nl c = some sub)
    (hs0 : sub.shortest_unique_prefix_len rest = 0) :
    (Trie.node pfx value nl).shortest_unique_prefix_len key =
      if nl.length == 1 && value.isNone then 0 else pfx.length + 1 := by
  rw [supl_child hlt hdrop hlk, hs0]

theorem supl_child_pos {I V : Type} [DecidableEq I] {pfx : List I} {value : Option V}
    {nl : List (I × Trie I V)} {key : List I} {c : I} {rest : List I} {sub : Trie I V}
    {n : Nat} (hlt : ¬ lenCommonPfx key pfx < pfx.length)
    (hdrop : key.drop pfx.length = c :: rest) (hlk : lookupChild nl c = some sub)
    (hs : sub.shortest_unique_prefix_len rest = n + 1) :
    (Trie.node pfx value nl).shortest_unique_prefix_len key =
      pfx.length + (n + 1) + 1 := by
  rw [supl_child hlt hdrop hlk, hs]
  rfl

theorem take_append_cons_zero {I : Type} (p : List I) (c : I) (u : List I) :
    (p ++ c :: u).take (p.length + 1) = p ++ [c] := by
  have h := take_append_cons p c u 0
  simpa using h

/-- `n` distinguishes `key` in trie `t`: no other key of `t` agrees with
`key` on the first `n` elements. -/
def Trie.distinguishes {I V : Type} [DecidableEq I] (t : Trie I V) (key : List I)
    (n : Nat) : Prop :=
  ∀ key', (t.get key').isSome = true → key' ≠ key → key'.take n ≠ key.take n

/-- The central correctness lemma for `shortest_unique_prefix_len`: on a
well-formed trie, for a key present in the trie it returns a length `n`
such that no other key agrees with `key` on the first `n` elements, and
no smaller length has that property. -/
theorem supl_spec {I V : Type} [DecidableEq I] (t : Trie I V) (key : List I) :
    t.WF → (t.get key).isSome = true →
    t.distinguishes key (t.shortest_unique_prefix_len key) ∧
      ∀ m, m < t.shortest_unique_prefix_len key → ¬ t.distinguishes key m := by
  induction t, key using Trie.shortest_unique_prefix_len.induct with
  | case1 pfx value nl key common hlt =>
    intro hwf hkey
    exfalso
    have hsw := startsWith_of_get_isSome hkey
    have heq := lcp_eq_of_startsWith hsw
    have hlt' : lenCommonPfx key pfx < pfx.length := hlt
    rw [heq] at hlt'
    exact lt_irrefl _ hlt'
  | case2 pfx value nl key common hlt hdrop hemp =>
    intro hwf hkey
    rw [supl_drop_nil hlt hdrop, if_pos hemp]
    obtain ⟨hkp, hval⟩ := value_some_of_drop_nil hkey hdrop
    subst hkp
    constructor
    · intro k' hk' hne
      exfalso
      obtain ⟨w, hw⟩ := Option.isSome_iff_exists.mp hk'
      rcases get_some_cases hw with ⟨hk, _⟩ | ⟨c, r, sub, hk, hlk, _⟩
      · exact hne hk
      · rw [List.isEmpty_iff] at hemp
        subst hemp
        cases hlk
    · intro m hm
      exact absurd hm (Nat.not_lt_zero m)
  | case3 pfx value nl key common hlt hdrop hemp =>
    intro hwf hkey
    rw [supl_drop_nil hlt hdrop, if_neg hemp]
    obtain ⟨hkp, hval⟩ := value_some_of_drop_nil hkey hdrop
    subst hkp
    have hnl : nl ≠ [] := by
      intro h
      subst h
      exact hemp rfl
    obtain ⟨q0, hq0⟩ := List.exists_mem_of_ne_nil nl hnl
    obtain ⟨c0, s0⟩ := q0
    obtain ⟨r0, hr0⟩ := WF_children_key hwf _ hq0
    have hlk0 : lookupChild nl c0 = some s0 :=
      lookupChild_eq_of_mem (WF_pairwise hwf) hq0
    have hget0 : ((Trie.node key value nl).get (key ++ c0 :: r0)).isSome = true :=
      node_get_child_isSome hlk0 hr0
    constructor
    · intro k' hk' hne
      obtain ⟨w, hw⟩ := Option.isSome_iff_exists.mp hk'
      rcases get_some_cases hw with ⟨hk, _⟩ | ⟨c, r, sub, hk, hlk, _⟩
      · exact absurd hk hne
      · subst hk
        rw [take_append_cons_zero, List.take_all_of_le (by omega)]
        intro heq
        have := congrArg List.length heq
        simp only [List.length_append, List.length_cons, List.length_nil] at this
        omega
    · intro m hm hd
      have htake : (key ++ c0 :: r0).take m = key.take m := by
        rw [take_append_le (by omega)]
      have hne0 : key ++ c0 :: r0 ≠ key := by
        intro heq
        have := congrArg List.length heq
        simp only [List.length_append, List.length_cons] at this
        omega
      exact (hd _ hget0 hne0) htake
  | case4 pfx value nl key common hlt c rest hdrop hlk hemp =>
    intro hwf hkey
    exfalso
    have hk := key_of_drop_cons hkey hdrop
    obtain ⟨w, hw⟩ := Option.isSome_iff_exists.mp hkey
    rcases get_some_cases hw with ⟨hkp, _⟩ | ⟨c', r', sub, hk', hlk', _⟩
    · rw [hkp, List.drop_length] at hdrop
      cases hdrop
    · rw [hk] at hk'
      have h12 := List.append_cancel_left hk'
      injection h12 with h1 h2
      subst h1
      rw [hlk] at hlk'
      cases hlk'
  | case5 pfx value nl key common hlt c rest hdrop hlk hemp =>
    intro hwf hkey
    exfalso
    have hk := key_of_drop_cons hkey hdrop
    obtain ⟨w, hw⟩ := Option.isSome_iff_exists.mp hkey
    rcases get_some_cases hw with ⟨hkp, _⟩ | ⟨c', r', sub, hk', hlk', _⟩
    · rw [hkp, List.drop_length] at hdrop
      cases hdrop
    · rw [hk] at hk'
      have h12 := List.append_cancel_left hk'
      injection h12 with h1 h2
      subst h1
      rw [hlk] at hlk'
      cases hlk'
  | case6 pfx value nl key common hlt c rest hdrop sub hlk hs0 hcond ih =>
    intro hwf hkey
    rw [supl_child_zero hlt hdrop hlk hs0, if_pos hcond]
    have hkeq := key_of_drop_cons hkey hdrop
    have IH := ih (WF_children hwf _ (lookupChild_mem hlk))
      (sub_get_of_node_get hkey hdrop hlk)
    have IH1 := IH.1
    rw [hs0] at IH1
    have hsubkeys : ∀ r', (sub.get r').isSome = true → r' = rest := by
      intro r' hr'
      by_contra hne
      exact (IH1 r' hr' hne) rfl
    have hcond' := hcond
    rw [Bool.and_eq_true, beq_iff_eq, Option.isNone_iff_eq_none] at hcond'
    have hnl : nl = [(c, sub)] := by
      have hmem := lookupChild_mem hlk
      cases nl with
      | nil => cases hmem
      | cons q t =>
        cases t with
        | nil =>
          rw [List.mem_singleton] at hmem
          rw [hmem]
        | cons q2 t2 =>
          exfalso
          have := hcond'.1
          simp at this
    constructor
    · intro k' hk' hne
      exfalso
      obtain ⟨w, hw⟩ := Option.isSome_iff_exists.mp hk'
      rcases get_some_cases hw with ⟨hkp, hv⟩ | ⟨c', r', sub', hk', hlk', hget⟩
      · rw [hcond'.2] at hv
        cases hv
      · rw [hnl] at hlk'
        simp only [lookupChild] at hlk'
        by_cases hcc : c = c'
        · subst hcc
          rw [if_pos rfl, Option.some.injEq] at hlk'
          subst hlk'
          have hre := hsubkeys r' (by rw [hget]; rfl)
          subst hre
          exact hne (by rw [hk', hkeq])
        · rw [if_neg hcc] at hlk'
          cases hlk'
    · intro m hm
      exact absurd hm (Nat.not_lt_zero m)
  | case7 pfx value nl key common hlt c rest hdrop sub hlk hs0 hcond ih =>
    intro hwf hkey
    rw [supl_child_zero hlt hdrop hlk hs0, if_neg hcond]
    have hkeq := key_of_drop_cons hkey hdrop
    have IH := ih (WF_children hwf _ (lookupChild_mem hlk))
      (sub_get_of_node_get hkey hdrop hlk)
    have IH1 := IH.1
    rw [hs0] at IH1
    have hsubkeys : ∀ r', (sub.get r').isSome = true → r' = rest := by
      intro r' hr'
      by_contra hne
      exact (IH1 r' hr' hne) rfl
    have hnl_ne : nl ≠ [] := by
      intro h
      rw [h] at hlk
      cases hlk
    have halt : value.isSome = true ∨ 2 ≤ nl.length := by
      by_contra hno
      push_neg at hno
      apply hcond
      rw [Bool.and_eq_true, beq_iff_eq]
      refine ⟨?_, ?_⟩
      · have h1 : 1 ≤ nl.length := by
          cases nl with
          | nil => exact absurd rfl hnl_ne
          | cons _ _ => simp
        omega
      · cases hv : value with
        | none => rfl
        | some w =>
          exfalso
          apply hno.1
          rw [hv]
          rfl
    constructor
    · intro k' hk' hne
      rw [hkeq, take_append_cons_zero]
      obtain ⟨w, hw⟩ := Option.isSome_iff_exists.mp hk'
      rcases get_some_cases hw with ⟨hkp, hv⟩ | ⟨c', r', sub', hk', hlk', hget⟩
      · subst hkp
        rw [List.take_all_of_le (by omega)]
        intro heq
        have := congrArg List.length heq
        simp only [List.length_append, List.length_cons, List.length_nil] at this
        omega
      · subst hk'
        rw [take_append_cons_zero]
        intro heq
        have h1 := List.append_cancel_left heq
        injection h1 with hc1 _
        subst hc1
        rw [hlk] at hlk'
        injection hlk' with h2
        subst h2
        have hre := hsubkeys r' (by rw [hget]; rfl)
        subst hre
        exact hne (by rw [hkeq])
    · intro m hm hd
      have hmle : m ≤ pfx.length := by omega
      rcases halt with hv | hlen
      · obtain ⟨w, hw⟩ := Option.isSome_iff_exists.mp hv
        have hkpfx : ((Trie.node pfx value nl).get pfx).isSome = true := by
          rw [get_at_pfx, hw]
          rfl
        have hnepfx : pfx ≠ key := by
          rw [hkeq]
          intro heq
          have := congrArg List.length heq
          simp only [List.length_append, List.length_cons] at this
          omega
        have htake : pfx.take m = key.take m := by
          rw [hkeq, take_append_le hmle]
        exact (hd pfx hkpfx hnepfx) htake
      · obtain ⟨q, hqmem, hqne⟩ := exists_fst_ne (WF_pairwise hwf) hlen c
        obtain ⟨c0, s0⟩ := q
        obtain ⟨r0, hr0⟩ := WF_children_key hwf _ hqmem
        have hlk0 := lookupChild_eq_of_mem (WF_pairwise hwf) hqmem
        have hget0 : ((Trie.node pfx value nl).get (pfx ++ c0 :: r0)).isSome = true :=
          node_get_child_isSome hlk0 hr0
        have hne0 : pfx ++ c0 :: r0 ≠ key := by
          rw [hkeq]
          intro heq
          have h1 := List.append_cancel_left heq
          injection h1 with h2 _
          exact hqne h2
        have htake : (pfx ++ c0 :: r0).take m = key.take m := by
          rw [hkeq, take_append_le hmle, take_append_le hmle]
        exact (hd _ hget0 hne0) htake
  | case8 pfx value nl key common hlt c rest hdrop sub hlk hns ih =>
    intro hwf hkey
    have hkeq := key_of_drop_cons hkey hdrop
    cases hn : sub.shortest_unique_prefix_len rest with
    | zero => exact absurd hn hns
    | succ n =>
      rw [supl_child_pos hlt hdrop hlk hn]
      have IH := ih (WF_children hwf _ (lookupChild_mem hlk))
        (sub_get_of_node_get hkey hdrop hlk)
      rw [hn] at IH
      have hidx : pfx.length + (n + 1) + 1 = pfx.length + 1 + (n + 1) := by omega
      rw [hidx]
      constructor
      · intro k' hk' hne
        rw [hkeq, take_append_cons pfx c rest (n + 1)]
        obtain ⟨w, hw⟩ := Option.isSome_iff_exists.mp hk'
        rcases get_some_cases hw with ⟨hkp, hv⟩ | ⟨c', r', sub', hk', hlk', hget⟩
        · subst hkp
          rw [List.take_all_of_le (by omega)]
          intro heq
          have := congrArg List.length heq
          simp only [List.length_append, List.length_cons] at this
          omega
        · subst hk'
          rw [take_append_cons pfx c' r' (n + 1)]
          intro heq
          have h1 := List.append_cancel_left heq
          injection h1 with hc1 hr1
          subst hc1
          rw [hlk] at hlk'
          injection hlk' with h2
          subst h2
          have hrne : r' ≠ rest := by
            intro h
            apply hne
            rw [hkeq, h]
          exact (IH.1 r' (by rw [hget]; rfl) hrne) hr1
      · intro m hm hd
        by_cases hmle : m ≤ pfx.length
        · have hnd := IH.2 0 (by omega)
          simp only [Trie.distinguishes] at hnd
          push_neg at hnd
          obtain ⟨r0, hr0, hrne, _⟩ := hnd
          have hget0 : ((Trie.node pfx value nl).get (pfx ++ c :: r0)).isSome = true :=
            node_get_child_isSome hlk hr0
          have hne0 : pfx ++ c :: r0 ≠ key := by
            rw [hkeq]
            intro heq
            have h1 := List.append_cancel_left heq
            injection h1 with _ h2
            exact hrne h2
          have htake : (pfx ++ c :: r0).take m = key.take m := by
            rw [hkeq, take_append_le hmle, take_append_le hmle]
          exact (hd _ hget0 hne0) htake
        · push_neg at hmle
          obtain ⟨m', rfl⟩ : ∃ m', m = pfx.length + 1 + m' :=
            ⟨m - pfx.length - 1, by omega⟩
          have hnd := IH.2 m' (by omega)
          simp only [Trie.distinguishes] at hnd
          push_neg at hnd
          obtain ⟨r0, hr0, hrne, htk⟩ := hnd
          have hget0 : ((Trie.node pfx value nl).get (pfx ++ c :: r0)).isSome = true :=
            node_get_child_isSome hlk hr0
          have hne0 : pfx ++ c :: r0 ≠ key := by
            rw [hkeq]
            intro heq
            have h1 := List.append_cancel_left heq
            injection h1 with _ h2
            exact hrne h2
          have htake : (pfx ++ c :: r0).take (pfx.length + 1 + m') =
              key.take (pfx.length + 1 + m') := by
            rw [hkeq, take_append_cons, take_append_cons, htk]
          exact (hd _ hget0 hne0) htake

/-- A trie built by a sequence of `insert` calls starting from
`Trie::new()`. -/
def buildTrie {I V : Type} [DecidableEq I] (ps : List (List I × V)) : Trie I V :=
  ps.foldl (fun t p => (t.insert p.1 p.2).1) Trie.emptyTrie

theorem build_go_WF {I V : Type} [DecidableEq I] (ps : List (List I × V)) :
    ∀ (t : Trie I V), t.WF → (t = Trie.emptyTrie ∨ ∃ k, (t.get k).isSome = true) →
    (ps.foldl (fun t p => (t.insert p.1 p.2).1) t).WF ∧
      ((ps.foldl (fun t p => (t.insert p.1 p.2).1) t) = Trie.emptyTrie ∨
        ∃ k, ((ps.foldl (fun t p => (t.insert p.1 p.2).1) t).get k).isSome = true) := by
  induction ps with
  | nil => intro t h1 h2; exact ⟨h1, h2⟩
  | cons p rest ih =>
    intro t h1 h2
    refine ih _ (insert_WF t p.1 p.2 h1 h2) (Or.inr ⟨p.1, ?_⟩)
    rw [get_insert_self]
    rfl

theorem buildTrie_WF {I V : Type} [DecidableEq I] (ps : List (List I × V)) :
    (buildTrie ps).WF :=
  (build_go_WF ps Trie.emptyTrie WF_emptyTrie (Or.inl rfl)).1

theorem build_go_get {I V : Type} [DecidableEq I] (ps : List (List I × V)) :
    ∀ (t : Trie I V) (k : List I),
    (((ps.foldl (fun t p => (t.insert p.1 p.2).1) t).get k).isSome = true ↔
      (k ∈ ps.map Prod.fst ∨ (t.get k).isSome = true)) := by
  induction ps with
  | nil => intro t k; simp
  | cons p rest ih =>
    intro t k
    rw [List.foldl_cons, ih]
    by_cases hk : k = p.1
    · subst hk
      simp only [List.map_cons, List.mem_cons, true_or, or_true, iff_true]
      right
      rw [get_insert_self]
      rfl
    · rw [get_insert_other t p.1 p.2 k hk]
      simp only [List.map_cons, List.mem_cons]
      constructor
      · rintro (h | h)
        · exact Or.inl (Or.inr h)
        · exact Or.inr h
      · rintro (h | h)
        · rcases h with h | h
          · exact absurd h hk
          · exact Or.inl h
        · exact Or.inr h

theorem buildTrie_get_iff {I V : Type} [DecidableEq I] (ps : List (List I × V))
    (k : List I) :
    ((buildTrie ps).get k).isSome = true ↔ k ∈ ps.map Prod.fst := by
  rw [buildTrie, build_go_get]
  have hemp : ((Trie.emptyTrie : Trie I V).get k).isSome = false := by
    rw [show (Trie.emptyTrie : Trie I V) = Trie.node [] none [] from rfl, get_empty_node]
    rfl
  rw [hemp]
  simp

/-- C4: for a trie built by `insert` calls with key set `K` and every key
`k ∈ K`, `shortest_unique_prefix_len k` is the least `n` such that no
other key of `K` agrees with `k` on its first `n` elements (where a
shorter key agrees only if it is itself the truncation); and when some
other key of `K` has `k` as a proper prefix, the result is `k.length + 1`. -/
theorem shortest_unique_prefix_len_correct {I V : Type} [DecidableEq I]
    (ps : List (List I × V)) (k : List I) (hk : k ∈ ps.map Prod.fst) :
    IsLeast {n | ∀ k' ∈ ps.map Prod.fst, k' ≠ k → k'.take n ≠ k.take n}
      ((buildTrie ps).shortest_unique_prefix_len k) ∧
    ((∃ k' ∈ ps.map Prod.fst, k' ≠ k ∧ listStartsWith k' k = true) →
      (buildTrie ps).shortest_unique_prefix_len k = k.length + 1) := by
  have hwf := buildTrie_WF ps
  have hkt : ((buildTrie ps).get k).isSome = true := (buildTrie_get_iff ps k).mpr hk
  have hspec := supl_spec (buildTrie ps) k hwf hkt
  have hset : ∀ n, (∀ k' ∈ ps.map Prod.fst, k' ≠ k → k'.take n ≠ k.take n) ↔
      (buildTrie ps).distinguishes k n := by
    intro n
    constructor
    · intro h k' hk' hne
      exact h k' ((buildTrie_get_iff ps k').mp hk') hne
    · intro h k' hk' hne
      exact h k' ((buildTrie_get_iff ps k').mpr hk') hne
  have hleast : IsLeast {n | ∀ k' ∈ ps.map Prod.fst, k' ≠ k → k'.take n ≠ k.take n}
      ((buildTrie ps).shortest_unique_prefix_len k) := by
    constructor
    · exact (hset _).mpr hspec.1
    · intro n hn
      by_contra hlt
      push_neg at hlt
      exact hspec.2 n hlt ((hset n).mp hn)
  refine ⟨hleast, ?_⟩
  intro hext
  obtain ⟨k0, hk0, hk0ne, hk0sw⟩ := hext
  have hmem : (k.length + 1) ∈
      {n | ∀ k' ∈ ps.map Prod.fst, k' ≠ k → k'.take n ≠ k.take n} := by
    intro k' _ hne heq
    rw [show k.take (k.length + 1) = k from List.take_all_of_le (by omega)] at heq
    have hlen := congrArg List.length heq
    rw [List.length_take] at hlen
    rcases le_or_lt k'.length k.length with hle | hgt
    · rw [show k'.take (k.length + 1) = k' from List.take_all_of_le (by omega)] at heq
      exact hne heq
    · rw [min_eq_left (by omega)] at hlen
      omega
  have hlb : ∀ n ∈ {n | ∀ k' ∈ ps.map Prod.fst, k' ≠ k → k'.take n ≠ k.take n},
      k.length + 1 ≤ n := by
    intro n hn
    by_contra hlt
    push_neg at hlt
    have hnk : n ≤ k.length := by omega
    have hk0eq := eq_append_drop_of_startsWith hk0sw
    apply hn k0 hk0 hk0ne
    rw [hk0eq, take_append_le hnk]
  exact hleast.unique ⟨hmem, hlb⟩

/-- Witness for C4 at the key list of the source's own unit test. -/
theorem shortest_unique_prefix_len_correct_witness :
    IsLeast {n | ∀ k' ∈ ([([0, 1], 1), ([0, 2, 3], 2), ([0, 2, 5], 2), ([0], 3),
        ([1, 0], 2)] : List (List Nat × Nat)).map Prod.fst, k' ≠ [0, 2, 3] →
        k'.take n ≠ ([0, 2, 3] : List Nat).take n}
      ((buildTrie ([([0, 1], 1), ([0, 2, 3], 2), ([0, 2, 5], 2), ([0], 3),
        ([1, 0], 2)] : List (List Nat × Nat))).shortest_unique_prefix_len [0, 2, 3]) ∧
    ((∃ k' ∈ ([([0, 1], 1), ([0, 2, 3], 2), ([0, 2, 5], 2), ([0], 3),
        ([1, 0], 2)] : List (List Nat × Nat)).map Prod.fst, k' ≠ [0, 2, 3] ∧
        listStartsWith k' [0, 2, 3] = true) →
      (buildTrie ([([0, 1], 1), ([0, 2, 3], 2), ([0, 2, 5], 2), ([0], 3),
        ([1, 0], 2)] : List (List Nat × Nat))).shortest_unique_prefix_len [0, 2, 3] =
        3 + 1) :=
  shortest_unique_prefix_len_correct
    ([([0, 1], 1), ([0, 2, 3], 2), ([0, 2, 5], 2), ([0], 3), ([1, 0], 2)] :
      List (List Nat × Nat)) [0, 2, 3] (by decide)

/-! ## Unified diff (unified_diff.rs)

Byte strings are `List Nat`; a newline byte is 10.  The line/word diff
engine (`ContentDiff`, diff.rs) is external to the sources: the line
diff is a parameter of `unified_diff_hunks` in the source itself, and
the word diff is passed as a parameter here.  Diff hunks carry a kind
and the two sides' contents (`hunk.contents` is `[left, right]` for the
two-input diffs used here). -/

abbrev Content := List Nat

inductive DiffLineType where
  | context
  | removed
  | added
deriving DecidableEq

inductive DiffTokenType where
  | matching
  | different
deriving DecidableEq

abbrev DiffTokenVec := List (DiffTokenType × Content)

inductive DiffHunkKind where
  | matching
  | different
deriving DecidableEq

structure CDiffHunk where
  kind : DiffHunkKind
  left : Content
  right : Content
deriving DecidableEq

/-- Rust's `split_inclusive(|b| *b == b'\n')`: split after every newline
byte, keeping the separator; the empty input yields no lines. -/
def splitLines : Content → List Content
  | [] => []
  | b :: rest =>
    match splitLines rest with
    | [] => [[b]]
    | l :: ls => if b = 10 then [b] :: l :: ls else (b :: l) :: ls

structure UnifiedDiffHunk where
  left_line_range : Nat × Nat
  right_line_range : Nat × Nat
  lines : List (DiffLineType × DiffTokenVec)
deriving DecidableEq

/-- `UnifiedDiffHunk::extend_context_lines`. -/
def UnifiedDiffHunk.extend_context_lines (h : UnifiedDiffHunk) (ls : List Content) :
    UnifiedDiffHunk :=
  { h with
    lines := h.lines ++ ls.map (fun line => (DiffLineType.context,
      [(DiffTokenType.matching, line)]))
    left_line_range := (h.left_line_range.1, h.left_line_range.2 + ls.length)
    right_line_range := (h.right_line_range.1, h.right_line_range.2 + ls.length) }

/-- `UnifiedDiffHunk::extend_removed_lines`. -/
def UnifiedDiffHunk.extend_removed_lines (h : UnifiedDiffHunk) (ls : List DiffTokenVec) :
    UnifiedDiffHunk :=
  { h with
    lines := h.lines ++ ls.map (fun line => (DiffLineType.removed, line))
    left_line_range := (h.left_line_range.1, h.left_line_range.2 + ls.length) }

/-- `UnifiedDiffHunk::extend_added_lines`. -/
def UnifiedDiffHunk.extend_added_lines (h : UnifiedDiffHunk) (ls : List DiffTokenVec) :
    UnifiedDiffHunk :=
  { h with
    lines := h.lines ++ ls.map (fun line => (DiffLineType.added, line))
    right_line_range := (h.right_line_range.1, h.right_line_range.2 + ls.length) }

/-- Token pushing of `unzip_diff_hunks_to_lines`: split a content into
inclusive-newline tokens, append each to the pending token vector and
flush a finished line whenever a token ends with a newline. -/
def pushTokens (tt : DiffTokenType) (content : Content)
    (st : List DiffTokenVec × DiffTokenVec) : List DiffTokenVec × DiffTokenVec :=
  (splitLines content).foldl
    (fun st token =>
      let toks := st.2 ++ [(tt, token)]
      if token.getLast? = some 10 then (st.1 ++ [toks], []) else (st.1, toks))
    st

/-- `unzip_diff_hunks_to_lines` (unified_diff.rs lines 282-334): split
`[left, right]` hunk pairs into `[left_lines, right_lines]`.  Matching
hunks push the shared content (`contents[0]`) to both sides; different
hunks push each side's own content. -/
def unzip_diff_hunks_to_lines (hunks : List CDiffHunk) :
    List DiffTokenVec × List DiffTokenVec :=
  let st := hunks.foldl
    (fun st h =>
      match h.kind with
      | .matching =>
        (pushTokens .matching h.left st.1, pushTokens .matching h.left st.2)
      | .different =>
        (pushTokens .different h.left st.1, pushTokens .different h.right st.2))
    (([], []), ([], []))
  ((if st.1.2.isEmpty then st.1.1 else st.1.1 ++ [st.1.2]),
   (if st.2.2.isEmpty then st.2.1 else st.2.1 ++ [st.2.2]))

/-- One step of the `while let Some(hunk)` loop of `unified_diff_hunks`
(unified_diff.rs lines 234-274).  `has_next` is `diff_hunks.peek().is_some()`.
In a `Matching` hunk, the loop takes at most `context` lines right after
the previous difference (only when the current hunk already has lines),
collects at most `context` lines to keep before the next difference
(only when more diff hunks follow), counts the remaining lines as
skipped, and if any line was skipped pushes the current hunk and starts
a new one whose line ranges begin after the skipped lines. -/
def udhStep (context : Nat) (word_diff : Content → Content → List CDiffHunk)
    (st : List UnifiedDiffHunk × UnifiedDiffHunk) (hunk : CDiffHunk)
    (has_next : Bool) : List UnifiedDiffHunk × UnifiedDiffHunk :=
  match hunk.kind with
  | .matching =>
    -- Just use the right (i.e. new) content.
    let ls := splitLines hunk.right
    let current1 := if st.2.lines ≠ [] then st.2.extend_context_lines (ls.take context)
      else st.2
    let ls1 := if st.2.lines ≠ [] then ls.drop context else ls
    let before_lines := if has_next then ls1.drop (ls1.length - context) else []
    let skipped := if has_next then ls1.take (ls1.length - context) else ls1
    if skipped.length > 0 then
      let left_start := current1.left_line_range.2 + skipped.length
      let right_start := current1.right_line_range.2 + skipped.length
      let hunks1 := if current1.lines ≠ [] then st.1 ++ [current1] else st.1
      let fresh : UnifiedDiffHunk :=
        { left_line_range := (left_start, left_start)
          right_line_range := (right_start, right_start)
          lines := [] }
      (hunks1, fresh.extend_context_lines before_lines)
    else
      (st.1, current1.extend_context_lines before_lines)
  | .different =>
    let p := unzip_diff_hunks_to_lines (word_diff hunk.left hunk.right)
    (st.1, (st.2.extend_removed_lines p.1).extend_added_lines p.2)

/-- The loop of `unified_diff_hunks` over the line-diff hunks, followed by
the final push of a nonempty current hunk. -/
def udhGo (context : Nat) (word_diff : Content → Content → List CDiffHunk) :
    List CDiffHunk → List UnifiedDiffHunk × UnifiedDiffHunk → List UnifiedDiffHunk
  | [], st => if st.2.lines ≠ [] then st.1 ++ [st.2] else st.1
  | h :: rest, st =>
    udhGo context word_diff rest (udhStep context word_diff st h (! rest.isEmpty))

/-- `unified_diff_hunks` (unified_diff.rs lines 221-279), over the hunks
produced by the `diff_by_line` parameter (the function takes the diff as
a parameter in the source as well); `word_diff` models the external
`ContentDiff::by_word`. -/
def unified_diff_hunks (context : Nat)
    (word_diff : Content → Content → List CDiffHunk)
    (diff_hunks : List CDiffHunk) : List UnifiedDiffHunk :=
  udhGo context word_diff diff_hunks
    ([], { left_line_range := (0, 0), right_line_range := (0, 0), lines := [] })

/-- C7: within a `Matching` diff segment, `unified_diff_hunks` (through
its loop body `udhStep`) keeps at most `context` context lines after the
preceding difference (and none when the current hunk is empty) and at
most `context` context lines before the following difference (and none
when no diff hunk follows); whenever the remaining skipped matching
lines are nonempty, the current hunk is ended (pushed if nonempty) and a
new hunk is started whose left and right line ranges begin after the
skipped lines. -/
theorem unified_diff_context_trimming (context : Nat)
    (word_diff : Content → Content → List CDiffHunk)
    (hunks : List UnifiedDiffHunk) (current : UnifiedDiffHunk)
    (lh rh : Content) (has_next : Bool) :
    ∃ after_lines skipped before_lines,
      splitLines rh = after_lines ++ (skipped ++ before_lines) ∧
      after_lines.length ≤ context ∧
      before_lines.length ≤ context ∧
      (current.lines = [] → after_lines = []) ∧
      (has_next = false → before_lines = []) ∧
      (skipped = [] →
        udhStep context word_diff (hunks, current) ⟨.matching, lh, rh⟩ has_next =
          (hunks,
            (if current.lines ≠ [] then current.extend_context_lines after_lines
              else current).extend_context_lines before_lines)) ∧
      (skipped ≠ [] →
        udhStep context word_diff (hunks, current) ⟨.matching, lh, rh⟩ has_next =
          (let current1 := if current.lines ≠ [] then
              current.extend_context_lines after_lines else current
           let left_start := current1.left_line_range.2 + skipped.length
           let right_start := current1.right_line_range.2 + skipped.length
           ((if current1.lines ≠ [] then hunks ++ [current1] else hunks),
            ({ left_line_range := (left_start, left_start)
               right_line_range := (right_start, right_start)
               lines := [] } : UnifiedDiffHunk).extend_context_lines before_lines))) := by
  by_cases hcl : current.lines = []
  · cases has_next with
    | false =>
      refine ⟨[], splitLines rh, [], by simp, by simp, by simp,
        fun _ => rfl, fun _ => rfl, ?_, ?_⟩
      · intro hskip
        simp only [udhStep, hcl, ne_eq, not_true_eq_false, if_false, Bool.false_eq_true,
          if_neg, ite_false, hskip]
        simp [hcl, hskip]
      · intro hskip
        have hpos : (splitLines rh).length > 0 := by
          cases h : splitLines rh with
          | nil => exact absurd h hskip
          | cons a t => simp [h]
        simp only [udhStep]
        simp [hcl, hpos, Nat.pos_iff_ne_zero]
    | true =>
      refine ⟨[], (splitLines rh).take ((splitLines rh).length - context),
        (splitLines rh).drop ((splitLines rh).length - context), by simp, by simp,
        ?_, fun _ => rfl, by simp, ?_, ?_⟩
      · rw [List.length_drop]
        omega
      · intro hskip
        simp only [udhStep]
        simp [hcl, hskip, List.length_eq_zero.mpr hskip]
      · intro hskip
        have hpos : 0 < ((splitLines rh).take ((splitLines rh).length - context)).length := by
          cases h : (splitLines rh).take ((splitLines rh).length - context) with
          | nil => exact absurd h hskip
          | cons a t => simp [h]
        simp only [udhStep]
        simp [hcl, hpos]
        intro h
        exfalso
        apply hskip
        have h0 : (splitLines rh).length - context = 0 := by omega
        rw [h0]
        rfl
  · cases has_next with
    | false =>
      refine ⟨(splitLines rh).take context, (splitLines rh).drop context, [],
        by simp, List.length_take_le _ _, by simp, fun h => absurd h hcl,
        fun _ => rfl, ?_, ?_⟩
      · intro hskip
        simp only [udhStep]
        simp [hcl, hskip, List.length_eq_zero.mpr hskip]
      · intro hskip
        have hpos : 0 < ((splitLines rh).drop context).length := by
          cases h : (splitLines rh).drop context with
          | nil => exact absurd h hskip
          | cons a t => simp [h]
        simp only [udhStep]
        simp [hcl, hpos]
        intro h
        exfalso
        exact hskip (List.drop_eq_nil_of_le h)
    | true =>
      refine ⟨(splitLines rh).take context,
        ((splitLines rh).drop context).take (((splitLines rh).drop context).length - context),
        ((splitLines rh).drop context).drop (((splitLines rh).drop context).length - context),
        by simp, List.length_take_le _ _, ?_, fun h => absurd h hcl, by simp, ?_, ?_⟩
      · rw [List.length_drop]
        omega
      · intro hskip
        simp only [udhStep]
        simp [hcl, hskip, List.length_eq_zero.mpr hskip]
        intro h
        exfalso
        have hl := congrArg List.length hskip
        rw [List.length_take, List.length_drop] at hl
        rw [show ([] : List Content).length = 0 from rfl] at hl
        rw [Nat.min_def] at hl
        split at hl <;> omega
      · intro hskip
        have hpos : 0 < (((splitLines rh).drop context).take
            (((splitLines rh).drop context).length - context)).length := by
          cases h : ((splitLines rh).drop context).take
              (((splitLines rh).drop context).length - context) with
          | nil => exact absurd h hskip
          | cons a t => simp [h]
        simp only [udhStep]
        simp [hcl, hpos]
        intro h
        exfalso
        apply hskip
        have h0 : ((splitLines rh).drop context).length - context = 0 := by
          rw [List.length_drop]
          omega
        rw [h0]
        rfl

/-- The all-zero initial unified-diff hunk. -/
def emptyUDH : UnifiedDiffHunk :=
  { left_line_range := (0, 0), right_line_range := (0, 0), lines := [] }

/-- Witness for C7 at a concrete matching hunk, context 1, with a
following hunk. -/
theorem unified_diff_context_trimming_witness :
    ∃ after_lines skipped before_lines,
      splitLines [97, 10, 98, 10, 99, 10] = after_lines ++ (skipped ++ before_lines) ∧
      after_lines.length ≤ 1 ∧
      before_lines.length ≤ 1 ∧
      (emptyUDH.lines = [] → after_lines = []) ∧
      (true = false → before_lines = []) ∧
      (skipped = [] →
        udhStep 1 (fun l r => [⟨.different, l, r⟩]) ([], emptyUDH)
          ⟨.matching, [97, 10, 98, 10, 99, 10], [97, 10, 98, 10, 99, 10]⟩ true =
          ([],
            (if emptyUDH.lines ≠ [] then emptyUDH.extend_context_lines after_lines
              else emptyUDH).extend_context_lines before_lines)) ∧
      (skipped ≠ [] →
        udhStep 1 (fun l r => [⟨.different, l, r⟩]) ([], emptyUDH)
          ⟨.matching, [97, 10, 98, 10, 99, 10], [97, 10, 98, 10, 99, 10]⟩ true =
          (let current1 := if emptyUDH.lines ≠ [] then
              emptyUDH.extend_context_lines after_lines else emptyUDH
           let left_start := current1.left_line_range.2 + skipped.length
           let right_start := current1.right_line_range.2 + skipped.length
           ((if current1.lines ≠ [] then [] ++ [current1] else []),
            ({ left_line_range := (left_start, left_start)
               right_line_range := (right_start, right_start)
               lines := [] } : UnifiedDiffHunk).extend_context_lines before_lines))) :=
  unified_diff_context_trimming 1 (fun l r => [⟨.different, l, r⟩]) [] emptyUDH
    [97, 10, 98, 10, 99, 10] [97, 10, 98, 10, 99, 10] true

/-! ## Annotation (annotate.rs)

The annotate engine walks `starting + ancestors(starting) filtered by
file` and attributes each line of the starting file to a commit.  The
store, tree materialization, revset engine and line-diff engine are
external to the sources and are modelled from the spec inside
`AnnotateEnv`.  Rust panics (`unwrap` on missing map entries, the
`panic!` on non-store revset errors) are modelled by the extra failure
value `panicked`, which is distinct from the errors the function
returns. -/

/-- Modelled from the spec: §4.1 materialized values for diff/annotate:
absent, file, symlink, git-submodule, tree, conflict, access-denied. -/
inductive MaterializedTreeValue where
  | absent
  | file (contents : Content)
  | symlink
  | gitSubmodule
  | tree
  | conflict (contents : Content)
  | accessDenied

/-- Failure modes of the modelled annotate engine: the two
`AnnotateError` variants (`FileNotFound`, `BackendError`) plus
`panicked` for Rust panics (which are not returned errors). -/
inductive AFail where
  | fileNotFound
  | backendError (code : Nat)
  | panicked
deriving DecidableEq

abbrev ARes (α : Type) := Except AFail α

/-- Modelled from the spec: §4.3 graph edges with type
`Direct`/`Indirect`/`Missing`. -/
inductive GraphEdgeType where
  | direct
  | indirect
  | missing
deriving DecidableEq

structure GraphEdge where
  edge_type : GraphEdgeType
  target : CommitId
deriving DecidableEq

/-- Modelled from the spec: `RevsetEvaluationError` is either a store
error (surfaced as *Backend*) or another evaluation error (on which
`process_commits` panics). -/
inductive RevsetEvaluationError where
  | storeError (code : Nat)
  | other (code : Nat)

/-- The annotate-era `DiffHunk`: `Matching(content)` or
`Different(one content per input)`. -/
inductive AnnDiffHunk where
  | matching (content : Content)
  | different (outputs : List Content)

/-- Modelled from the spec: the external context of the annotate engine.
`treeValue` collapses `Commit::tree` + `MergedTree::path_value` +
`materialize_tree_value` for the (fixed) annotated file path to the
materialized value in each commit's tree; `getCommit` is the store's
`get_commit`, failing only with backend errors; `revsetGraph` is the
evaluated revset's `iter_graph` for
`starting + ancestors(starting) filtered by file`; `byLine` is
`Diff::by_line`. -/
structure AnnotateEnv where
  treeValue : CommitId → MaterializedTreeValue
  getCommit : CommitId → Except Nat Unit
  revsetGraph : CommitId → Except RevsetEvaluationError (List (CommitId × List GraphEdge))
  byLine : Content → Content → List AnnDiffHunk

/-! ### Association-list maps (modelling `HashMap` with `Nat` keys) -/

def lookupA {α : Type} : List (Nat × α) → Nat → Option α
  | [], _ => none
  | (k, v) :: rest, key => if k = key then some v else lookupA rest key

def updateA {α : Type} : List (Nat × α) → Nat → α → List (Nat × α)
  | [], key, v => [(key, v)]
  | (k, w) :: rest, key, v =>
    if k = key then (key, v) :: rest else (k, w) :: updateA rest key v

def removeA {α : Type} : List (Nat × α) → Nat → List (Nat × α)
  | [], _ => []
  | (k, w) :: rest, key => if k = key then rest else (k, w) :: removeA rest key

/-! ### `PartialResults` (annotate.rs lines 75-181) -/

structure PartialResults where
  original_line_map : List (Nat × CommitId)
  local_line_map : List (CommitId × List (Nat × Nat))
  file_cache : List (CommitId × Content)

/-- `PartialResults::new`: the starting commit's local map is the
identity on `0..num_lines`. -/
def PartialResults.new (starting_commit_id : CommitId) (num_lines : Nat) :
    PartialResults :=
  { original_line_map := []
    local_line_map := [(starting_commit_id, (List.range num_lines).map (fun i => (i, i)))]
    file_cache := [] }

/-- `PartialResults::forward_to_new_commit` (annotate.rs lines 111-132). -/
def PartialResults.forward_to_new_commit (r : PartialResults) (old_commit_id : CommitId)
    (old_local_line_number : Nat) (new_commit_id : CommitId)
    (new_local_line_number : Nat) : PartialResults :=
  match lookupA r.local_line_map old_commit_id with
  | none => r
  | some old_map =>
    match lookupA old_map old_local_line_number with
    | none => r
    | some removed_original_line_number =>
      let old_map1 := removeA old_map old_local_line_number
      let r1 := { r with local_line_map := updateA r.local_line_map old_commit_id old_map1 }
      match lookupA r1.local_line_map new_commit_id with
      | some new_map =>
        let new_map1 := updateA new_map new_local_line_number removed_original_line_number
        { r1 with local_line_map := updateA r1.local_line_map new_commit_id new_map1 }
      | none =>
        let entry := (new_commit_id, [(new_local_line_number, removed_original_line_number)])
        { r1 with local_line_map := r1.local_line_map ++ [entry] }

/-- `PartialResults::drain_remaining_for_commit_id` (annotate.rs lines
137-145): leftover local lines of the commit are original to it. -/
def PartialResults.drain_remaining_for_commit_id (r : PartialResults)
    (commit_id : CommitId) : PartialResults :=
  let r1 := { r with file_cache := removeA r.file_cache commit_id }
  match lookupA r1.local_line_map commit_id with
  | none => r1
  | some remaining_lines =>
    { r1 with
      local_line_map := removeA r1.local_line_map commit_id
      original_line_map := remaining_lines.foldl
        (fun om p => updateA om p.2 commit_id) r1.original_line_map }

/-- `get_file_contents` (annotate.rs lines 353-380): `None` for an
absent path and for any non-file, non-conflict value (the `_ => Ok(None)`
arm); file read errors are swallowed by the source (`let _ = ...`), so
file contents are returned as-is. -/
def get_file_contents (v : MaterializedTreeValue) : Option Content :=
  match v with
  | .absent => none
  | .file contents => some contents
  | .conflict contents => some contents
  | _ => none

/-- `PartialResults::load_file_into_cache` (annotate.rs lines 165-181). -/
def PartialResults.load_file_into_cache (r : PartialResults) (env : AnnotateEnv)
    (commit_id : CommitId) : PartialResults :=
  if (lookupA r.file_cache commit_id).isSome then r
  else
    match get_file_contents (env.treeValue commit_id) with
    | some file_contents =>
      { r with file_cache := updateA r.file_cache commit_id file_contents }
    | none => r

/-- `get_same_line_map` (annotate.rs lines 318-351): line counters over
the diff hunks; a `Matching` hunk records one `(current, parent)` pair
per common line, a `Different` hunk advances each side's counter by its
own number of lines (an empty side has no lines, making the source's
`is_empty` guards redundant). -/
def get_same_line_map (byLine : Content → Content → List AnnDiffHunk)
    (current_contents parent_contents : Content) : List (Nat × Nat) :=
  ((byLine current_contents parent_contents).foldl
    (fun (st : List (Nat × Nat) × Nat × Nat) hunk =>
      match hunk with
      | .matching common_string =>
        (splitLines common_string).foldl
          (fun st _ => (updateA st.1 st.2.1 st.2.2, st.2.1 + 1, st.2.2 + 1)) st
      | .different outputs =>
        let current_output := outputs.getD 0 []
        let parent_output := outputs.getD 1 []
        (st.1, st.2.1 + (splitLines current_output).length,
          st.2.2 + (splitLines parent_output).length))
    ([], 0, 0)).1

/-- `process_files_in_commits` (annotate.rs lines 287-315): load both
files into the cache and forward every common line from the current
commit to the parent commit.  The `unwrap`s on the cache panic when a
commit of the revset has no file at the path. -/
def process_files_in_commits (env : AnnotateEnv) (r : PartialResults)
    (current parent : CommitId) : ARes PartialResults :=
  let r1 := (r.load_file_into_cache env current).load_file_into_cache env parent
  match lookupA r1.file_cache current, lookupA r1.file_cache parent with
  | some current_contents, some parent_contents =>
    .ok ((get_same_line_map env.byLine current_contents parent_contents).foldl
      (fun r p => r.forward_to_new_commit current p.1 parent p.2) r1)
  | _, _ => .error .panicked

/-- The parent-edge loop of `process_commit` (annotate.rs lines
261-272). -/
def processEdges (env : AnnotateEnv) (current : CommitId) :
    List GraphEdge → PartialResults → ARes PartialResults
  | [], r => .ok r
  | parent_edge :: rest, r =>
    if parent_edge.edge_type ≠ GraphEdgeType.missing then
      match env.getCommit parent_edge.target with
      | .error code => .error (.backendError code)
      | .ok _ =>
        match process_files_in_commits env r current parent_edge.target with
        | .error e => .error e
        | .ok r' => processEdges env current rest r'
    else processEdges env current rest r

/-- `process_commit` (annotate.rs lines 254-276). -/
def process_commit (env : AnnotateEnv) (r : PartialResults) (current : CommitId)
    (edges : List GraphEdge) : ARes PartialResults :=
  match processEdges env current edges r with
  | .error e => .error e
  | .ok r' => .ok (r'.drain_remaining_for_commit_id current)

/-- The `for (cid, edge_list) in revset.iter_graph()` loop of
`process_commits` (annotate.rs lines 238-244), with its early break as
soon as `original_line_map` has at least `num_lines` entries. -/
def processLoop (env : AnnotateEnv) (num_lines : Nat) :
    List (CommitId × List GraphEdge) → PartialResults → ARes PartialResults
  | [], r => .ok r
  | (cid, edge_list) :: rest, r =>
    match env.getCommit cid with
    | .error code => .error (.backendError code)
    | .ok _ =>
      match process_commit env r cid edge_list with
      | .error e => .error e
      | .ok r' =>
        if num_lines ≤ r'.original_line_map.length then .ok r'
        else processLoop env num_lines rest r'

/-- `process_commits` (annotate.rs lines 216-246): evaluate the revset
(store errors become *Backend*, other evaluation errors panic) and run
the commit loop. -/
def process_commits (env : AnnotateEnv) (starting_commit_id : CommitId)
    (r : PartialResults) (num_lines : Nat) : ARes PartialResults :=
  match env.revsetGraph starting_commit_id with
  | .error (.storeError code) => .error (.backendError code)
  | .error (.other _) => .error .panicked
  | .ok graph => processLoop env num_lines graph r

/-- `PartialResults::convert_to_results` (annotate.rs lines 147-161):
one `(commit, line)` entry per line of the original file, in file order;
the `unwrap` panics when a line is missing from `original_line_map`. -/
def convertLines (om : List (Nat × CommitId)) :
    List (Nat × Content) → ARes (List (CommitId × Content))
  | [] => .ok []
  | (idx, line) :: rest =>
    match lookupA om idx with
    | none => .error .panicked
    | some cid =>
      match convertLines om rest with
      | .error e => .error e
      | .ok out => .ok ((cid, line) :: out)

def convert_to_results (r : PartialResults) (original_contents : Content) :
    ARes (List (CommitId × Content)) :=
  convertLines r.original_line_map (splitLines original_contents).enum

/-- `get_annotation_for_file` (annotate.rs lines 185-210). -/
def get_annotation_for_file (env : AnnotateEnv) (starting_commit : CommitId) :
    ARes (List (CommitId × Content)) :=
  match get_file_contents (env.treeValue starting_commit) with
  | some original_contents =>
    let num_lines := (splitLines original_contents).length
    let partial_results := PartialResults.new starting_commit num_lines
    match process_commits env starting_commit partial_results num_lines with
    | .error e => .error e
    | .ok r => convert_to_results r original_contents
  | none => .error .fileNotFound

/-! ### C5: `FileNotFound` is returned exactly when the starting commit
lacks the file -/

/-- Follows the spec's words: "the starting commit lacks the file" means
the tree holds no file-like value (neither a regular file nor conflict
contents) at the annotated path. -/
def commit_lacks_file (v : MaterializedTreeValue) : Bool :=
  match v with
  | .file _ => false
  | .conflict _ => false
  | _ => true

lemma get_file_contents_none_iff (v : MaterializedTreeValue) :
    get_file_contents v = none ↔ commit_lacks_file v = true := by
  cases v <;> simp [get_file_contents, commit_lacks_file]

lemma process_files_in_commits_error {env : AnnotateEnv} {r : PartialResults}
    {c p : CommitId} {e : AFail}
    (h : process_files_in_commits env r c p = .error e) : e = .panicked := by
  unfold process_files_in_commits at h
  dsimp only at h
  split at h
  · exact Except.noConfusion h
  · injection h with h'
    exact h'.symm

lemma processEdges_ne_fnf (env : AnnotateEnv) (c : CommitId) :
    ∀ (edges : List GraphEdge) (r : PartialResults),
      processEdges env c edges r ≠ .error .fileNotFound := by
  intro edges
  induction edges with
  | nil =>
    intro r h
    exact Except.noConfusion h
  | cons pe rest ih =>
    intro r h
    unfold processEdges at h
    split at h
    · split at h
      · injection h with h'
        exact AFail.noConfusion h'
      · split at h
        · rename_i e he
          injection h with h'
          rw [process_files_in_commits_error he] at h'
          exact AFail.noConfusion h'
        · exact ih _ h
    · exact ih _ h

lemma process_commit_ne_fnf (env : AnnotateEnv) (r : PartialResults)
    (c : CommitId) (edges : List GraphEdge) :
    process_commit env r c edges ≠ .error .fileNotFound := by
  intro h
  unfold process_commit at h
  split at h
  · rename_i e he
    injection h with h'
    rw [h'] at he
    exact processEdges_ne_fnf env c edges r he
  · exact Except.noConfusion h

lemma processLoop_ne_fnf (env : AnnotateEnv) (n : Nat) :
    ∀ (graph : List (CommitId × List GraphEdge)) (r : PartialResults),
      processLoop env n graph r ≠ .error .fileNotFound := by
  intro graph
  induction graph with
  | nil =>
    intro r h
    exact Except.noConfusion h
  | cons entry rest ih =>
    intro r h
    unfold processLoop at h
    split at h
    · injection h with h'
      exact AFail.noConfusion h'
    · split at h
      · rename_i e he
        injection h with h'
        rw [h'] at he
        exact process_commit_ne_fnf env r _ _ he
      · split at h
        · exact Except.noConfusion h
        · exact ih _ h

lemma process_commits_ne_fnf (env : AnnotateEnv) (c : CommitId)
    (r : PartialResults) (n : Nat) :
    process_commits env c r n ≠ .error .fileNotFound := by
  intro h
  unfold process_commits at h
  split at h
  · injection h with h'
    exact AFail.noConfusion h'
  · injection h with h'
    exact AFail.noConfusion h'
  · exact processLoop_ne_fnf env n _ r h

lemma convertLines_ne_fnf (om : List (Nat × CommitId)) :
    ∀ (lines : List (Nat × Content)),
      convertLines om lines ≠ .error .fileNotFound := by
  intro lines
  induction lines with
  | nil =>
    intro h
    exact Except.noConfusion h
  | cons p rest ih =>
    intro h
    unfold convertLines at h
    split at h
    · injection h with h'
      exact AFail.noConfusion h'
    · split at h
      · rename_i e he
        injection h with h'
        rw [h'] at he
        exact ih he
      · exact Except.noConfusion h

/-- C5: `get_annotation_for_file` fails with the `FileNotFound` error if
and only if the starting commit's tree lacks the file at the annotated
path; every failure it returns other than `FileNotFound` is a `Backend`
error (or one of the modelled Rust panics, which the source does not
return as an error at all). -/
theorem get_annotation_file_not_found (env : AnnotateEnv) (c : CommitId) :
    (get_annotation_for_file env c = .error .fileNotFound ↔
      commit_lacks_file (env.treeValue c) = true) ∧
    (∀ e : AFail, get_annotation_for_file env c = .error e →
      e ≠ .fileNotFound → e = .panicked ∨ ∃ code, e = .backendError code) := by
  constructor
  · constructor
    · intro h
      unfold get_annotation_for_file at h
      split at h
      · dsimp only at h
        split at h
        · rename_i e he
          injection h with h'
          rw [h'] at he
          exact absurd he (process_commits_ne_fnf env c _ _)
        · exact absurd h (convertLines_ne_fnf _ _)
      · rename_i hnone
        exact (get_file_contents_none_iff _).mp hnone
    · intro h
      have hnone : get_file_contents (env.treeValue c) = none :=
        (get_file_contents_none_iff _).mpr h
      unfold get_annotation_for_file
      rw [hnone]
  · intro e _ hne
    cases e with
    | fileNotFound => exact absurd rfl hne
    | backendError code => exact Or.inr ⟨code, rfl⟩
    | panicked => exact Or.inl rfl

/-- Concrete environment whose starting tree value is a symlink (not a
file), for the C5 witness. -/
def envC5fnf : AnnotateEnv :=
  { treeValue := fun _ => .symlink
    getCommit := fun _ => .ok ()
    revsetGraph := fun _ => .ok []
    byLine := fun _ _ => [] }

/-- Concrete environment whose revset evaluation fails with a store
error, for the C5 witness. -/
def envC5bk : AnnotateEnv :=
  { treeValue := fun _ => .file [97, 10]
    getCommit := fun _ => .ok ()
    revsetGraph := fun _ => .error (.storeError 7)
    byLine := fun _ _ => [] }

theorem get_annotation_file_not_found_witness :
    get_annotation_for_file envC5fnf 0 = .error .fileNotFound ∧
    (AFail.backendError 7 = .panicked ∨
      ∃ code, AFail.backendError 7 = .backendError code) :=
  ⟨(get_annotation_file_not_found envC5fnf 0).1.mpr rfl,
   (get_annotation_file_not_found envC5bk 0).2 (.backendError 7) rfl (by decide)⟩

/-! ### C6: annotate completeness on success -/

lemma mem_updateA {α : Type} {l : List (Nat × α)} {k : Nat} {v : α} {q : Nat × α}
    (h : q ∈ updateA l k v) : q = (k, v) ∨ q ∈ l := by
  induction l with
  | nil =>
    simp only [updateA, List.mem_singleton] at h
    exact Or.inl h
  | cons p rest ih =>
    obtain ⟨k1, w⟩ := p
    simp only [updateA] at h
    split at h
    · rcases List.mem_cons.mp h with h1 | h1
      · exact Or.inl h1
      · exact Or.inr (List.mem_cons_of_mem _ h1)
    · rcases List.mem_cons.mp h with h1 | h1
      · rw [h1]
        exact Or.inr (List.mem_cons_self _ _)
      · rcases ih h1 with h2 | h2
        · exact Or.inl h2
        · exact Or.inr (List.mem_cons_of_mem _ h2)

lemma mem_removeA {α : Type} {l : List (Nat × α)} {k : Nat} {q : Nat × α}
    (h : q ∈ removeA l k) : q ∈ l := by
  induction l with
  | nil => exact absurd h (List.not_mem_nil q)
  | cons p rest ih =>
    obtain ⟨k1, w⟩ := p
    simp only [removeA] at h
    split at h
    · exact List.mem_cons_of_mem _ h
    · rcases List.mem_cons.mp h with h1 | h1
      · rw [h1]
        exact List.mem_cons_self _ _
      · exact List.mem_cons_of_mem _ (ih h1)

lemma lookupA_mem {α : Type} {l : List (Nat × α)} {k : Nat} {v : α}
    (h : lookupA l k = some v) : (k, v) ∈ l := by
  induction l with
  | nil => exact Option.noConfusion h
  | cons p rest ih =>
    obtain ⟨k1, w⟩ := p
    simp only [lookupA] at h
    split at h
    · rename_i hk
      injection h with h1
      rw [← hk, ← h1]
      exact List.mem_cons_self _ _
    · exact List.mem_cons_of_mem _ (ih h)

lemma keys_updateA {α : Type} (l : List (Nat × α)) (k : Nat) (v : α) (a : Nat) :
    a ∈ (updateA l k v).map Prod.fst ↔ a = k ∨ a ∈ l.map Prod.fst := by
  induction l with
  | nil => simp [updateA]
  | cons p rest ih =>
    obtain ⟨k1, w⟩ := p
    simp only [updateA]
    split
    · rename_i hk
      subst hk
      simp only [List.map_cons, List.mem_cons]
      tauto
    · simp only [List.map_cons, List.mem_cons, ih]
      tauto

lemma nodup_keys_updateA {α : Type} {l : List (Nat × α)} (k : Nat) (v : α)
    (h : (l.map Prod.fst).Nodup) : ((updateA l k v).map Prod.fst).Nodup := by
  induction l with
  | nil => simp [updateA]
  | cons p rest ih =>
    obtain ⟨k1, w⟩ := p
    simp only [List.map_cons, List.nodup_cons] at h
    simp only [updateA]
    split
    · rename_i hk
      subst hk
      simp only [List.map_cons, List.nodup_cons]
      exact h
    · rename_i hk
      simp only [List.map_cons, List.nodup_cons]
      refine ⟨?_, ih h.2⟩
      intro hmem
      rcases (keys_updateA rest k v k1).mp hmem with h1 | h1
      · exact hk h1
      · exact h.1 h1

lemma lookupA_isSome_iff {α : Type} (l : List (Nat × α)) (k : Nat) :
    (lookupA l k).isSome = true ↔ k ∈ l.map Prod.fst := by
  induction l with
  | nil => simp [lookupA]
  | cons p rest ih =>
    obtain ⟨k1, w⟩ := p
    simp only [lookupA, List.map_cons, List.mem_cons]
    split
    · rename_i hk
      subst hk
      simp
    · rename_i hk
      rw [ih]
      constructor
      · exact Or.inr
      · rintro (h1 | h1)
        · exact absurd h1.symm hk
        · exact h1

lemma length_eq_of_complete (l : List (Nat × CommitId)) (n : Nat)
    (hnd : (l.map Prod.fst).Nodup)
    (hlt : ∀ k ∈ l.map Prod.fst, k < n)
    (hall : ∀ i, i < n → i ∈ l.map Prod.fst) :
    l.length = n := by
  have h1 : (l.map Prod.fst).toFinset = Finset.range n := by
    ext a
    simp only [List.mem_toFinset, Finset.mem_range]
    exact ⟨hlt a, hall a⟩
  have h2 := List.toFinset_card_of_nodup hnd
  have h3 : l.length = (l.map Prod.fst).length := (List.length_map l Prod.fst).symm
  rw [h3, ← h2, h1, Finset.card_range]

/-- Verification invariant threaded through the annotate walk: the keys
of `original_line_map` stay pairwise distinct and below `num_lines`, and
every original line number stored in `local_line_map` stays below
`num_lines`. -/
def PRInv (n : Nat) (r : PartialResults) : Prop :=
  (r.original_line_map.map Prod.fst).Nodup ∧
  (∀ k ∈ r.original_line_map.map Prod.fst, k < n) ∧
  (∀ e ∈ r.local_line_map, ∀ p ∈ e.2, p.2 < n)

lemma PRInv_new (c : CommitId) (n : Nat) : PRInv n (PartialResults.new c n) := by
  refine ⟨by simp [PartialResults.new], by simp [PartialResults.new], ?_⟩
  intro e he p hp
  simp only [PartialResults.new, List.mem_singleton] at he
  subst he
  simp only [List.mem_map, List.mem_range] at hp
  obtain ⟨i, hi, hpi⟩ := hp
  rw [← hpi]
  exact hi

lemma PRInv_forward {n : Nat} {r : PartialResults} (oc oln nc nln : Nat)
    (h : PRInv n r) : PRInv n (r.forward_to_new_commit oc oln nc nln) := by
  obtain ⟨h1, h2, h3⟩ := h
  unfold PartialResults.forward_to_new_commit
  split
  · exact ⟨h1, h2, h3⟩
  · rename_i old_map hold
    split
    · exact ⟨h1, h2, h3⟩
    · rename_i ron hron
      have hronn : ron < n := h3 _ (lookupA_mem hold) _ (lookupA_mem hron)
      dsimp only
      split
      · rename_i new_map hnew
        refine ⟨h1, h2, ?_⟩
        intro e he p hp
        rcases mem_updateA he with rfl | he1
        · rcases mem_updateA hp with rfl | hp1
          · exact hronn
          · have hmem0 : (nc, new_map) ∈
                updateA r.local_line_map oc (removeA old_map oln) :=
              lookupA_mem hnew
            rcases mem_updateA hmem0 with heq | hmem
            · injection heq with e1 e2
              rw [e2] at hp1
              exact h3 _ (lookupA_mem hold) _ (mem_removeA hp1)
            · exact h3 _ hmem _ hp1
        · rcases mem_updateA he1 with rfl | he2
          · exact h3 _ (lookupA_mem hold) _ (mem_removeA hp)
          · exact h3 _ he2 _ hp
      · refine ⟨h1, h2, ?_⟩
        intro e he p hp
        rcases List.mem_append.mp he with he1 | he1
        · rcases mem_updateA he1 with rfl | he2
          · exact h3 _ (lookupA_mem hold) _ (mem_removeA hp)
          · exact h3 _ he2 _ hp
        · simp only [List.mem_singleton] at he1
          subst he1
          simp only [List.mem_singleton] at hp
          subst hp
          exact hronn

lemma drainFold_keys (cid : CommitId) (ps : List (Nat × Nat)) (n : Nat) :
    ∀ om : List (Nat × CommitId),
      (om.map Prod.fst).Nodup → (∀ k ∈ om.map Prod.fst, k < n) →
      (∀ p ∈ ps, p.2 < n) →
      ((ps.foldl (fun om p => updateA om p.2 cid) om).map Prod.fst).Nodup ∧
      (∀ k ∈ (ps.foldl (fun om p => updateA om p.2 cid) om).map Prod.fst, k < n) := by
  induction ps with
  | nil =>
    intro om h1 h2 _
    exact ⟨h1, h2⟩
  | cons p rest ih =>
    intro om h1 h2 h3
    simp only [List.foldl_cons]
    apply ih
    · exact nodup_keys_updateA _ _ h1
    · intro k hk
      rcases (keys_updateA om p.2 cid k).mp hk with rfl | hk1
      · exact h3 p (List.mem_cons_self _ _)
      · exact h2 k hk1
    · intro q hq
      exact h3 q (List.mem_cons_of_mem _ hq)

lemma PRInv_drain {n : Nat} {r : PartialResults} (cid : CommitId)
    (h : PRInv n r) : PRInv n (r.drain_remaining_for_commit_id cid) := by
  obtain ⟨h1, h2, h3⟩ := h
  unfold PartialResults.drain_remaining_for_commit_id
  dsimp only
  split
  · exact ⟨h1, h2, h3⟩
  · rename_i remaining hrem
    have hvals : ∀ p ∈ remaining, p.2 < n := h3 _ (lookupA_mem hrem)
    have hkeys := drainFold_keys cid remaining n r.original_line_map h1 h2 hvals
    refine ⟨hkeys.1, hkeys.2, ?_⟩
    intro e he p hp
    exact h3 _ (mem_removeA he) _ hp

lemma PRInv_load {n : Nat} {r : PartialResults} (env : AnnotateEnv) (cid : CommitId)
    (h : PRInv n r) : PRInv n (r.load_file_into_cache env cid) := by
  obtain ⟨h1, h2, h3⟩ := h
  unfold PartialResults.load_file_into_cache
  split
  · exact ⟨h1, h2, h3⟩
  · split
    · exact ⟨h1, h2, h3⟩
    · exact ⟨h1, h2, h3⟩

lemma PRInv_forwardFold {n : Nat} (cur par : CommitId) :
    ∀ (l : List (Nat × Nat)) (r : PartialResults), PRInv n r →
      PRInv n (l.foldl (fun r p => r.forward_to_new_commit cur p.1 par p.2) r) := by
  intro l
  induction l with
  | nil =>
    intro r h
    exact h
  | cons p rest ih =>
    intro r h
    simp only [List.foldl_cons]
    exact ih _ (PRInv_forward _ _ _ _ h)

lemma PRInv_pfic {n : Nat} {env : AnnotateEnv} {r r' : PartialResults}
    {cur par : CommitId}
    (h : process_files_in_commits env r cur par = .ok r') (hr : PRInv n r) :
    PRInv n r' := by
  unfold process_files_in_commits at h
  dsimp only at h
  split at h
  · injection h with h1
    rw [← h1]
    exact PRInv_forwardFold cur par _ _ (PRInv_load env par (PRInv_load env cur hr))
  · exact Except.noConfusion h

lemma PRInv_processEdges {n : Nat} {env : AnnotateEnv} {cur : CommitId} :
    ∀ {edges : List GraphEdge} {r r' : PartialResults},
      processEdges env cur edges r = .ok r' → PRInv n r → PRInv n r' := by
  intro edges
  induction edges with
  | nil =>
    intro r r' h hr
    injection h with h1
    exact h1 ▸ hr
  | cons pe rest ih =>
    intro r r' h hr
    unfold processEdges at h
    split at h
    · split at h
      · exact Except.noConfusion h
      · split at h
        · exact Except.noConfusion h
        · rename_i r1 hr1
          exact ih h (PRInv_pfic hr1 hr)
    · exact ih h hr

lemma PRInv_process_commit {n : Nat} {env : AnnotateEnv} {r : PartialResults}
    {cur : CommitId} {edges : List GraphEdge} {r' : PartialResults}
    (h : process_commit env r cur edges = .ok r') (hr : PRInv n r) : PRInv n r' := by
  unfold process_commit at h
  split at h
  · exact Except.noConfusion h
  · rename_i r1 hr1
    injection h with h1
    rw [← h1]
    exact PRInv_drain cur (PRInv_processEdges hr1 hr)

lemma PRInv_processLoop {n : Nat} {env : AnnotateEnv} :
    ∀ {graph : List (CommitId × List GraphEdge)} {r r' : PartialResults},
      processLoop env n graph r = .ok r' → PRInv n r → PRInv n r' := by
  intro graph
  induction graph with
  | nil =>
    intro r r' h hr
    injection h with h1
    exact h1 ▸ hr
  | cons entry rest ih =>
    intro r r' h hr
    unfold processLoop at h
    split at h
    · exact Except.noConfusion h
    · split at h
      · exact Except.noConfusion h
      · rename_i r1 hr1
        split at h
        · injection h with h1
          exact h1 ▸ PRInv_process_commit hr1 hr
        · exact ih h (PRInv_process_commit hr1 hr)

lemma PRInv_process_commits {n : Nat} {env : AnnotateEnv} {c : CommitId}
    {r r' : PartialResults}
    (h : process_commits env c r n = .ok r') (hr : PRInv n r) : PRInv n r' := by
  unfold process_commits at h
  split at h
  · exact Except.noConfusion h
  · exact Except.noConfusion h
  · exact PRInv_processLoop h hr

lemma convertLines_ok (om : List (Nat × CommitId)) :
    ∀ (lines : List (Nat × Content)) (out : List (CommitId × Content)),
      convertLines om lines = .ok out →
      (∀ p ∈ lines, (lookupA om p.1).isSome = true) ∧
      out = lines.map (fun p => ((lookupA om p.1).getD 0, p.2)) := by
  intro lines
  induction lines with
  | nil =>
    intro out h
    injection h with h1
    constructor
    · intro p hp
      exact absurd hp (List.not_mem_nil p)
    · rw [← h1]
      rfl
  | cons p rest ih =>
    obtain ⟨idx, line⟩ := p
    intro out h
    unfold convertLines at h
    split at h
    · exact Except.noConfusion h
    · rename_i cid hcid
      split at h
      · exact Except.noConfusion h
      · rename_i out' hout'
        injection h with h1
        obtain ⟨ha, hb⟩ := ih out' hout'
        constructor
        · intro q hq
          rcases List.mem_cons.mp hq with hq1 | hq1
          · rw [hq1]
            simp [hcid]
          · exact ha q hq1
        · rw [← h1, List.map_cons]
          simp only [hcid, Option.getD_some]
          rw [hb]

/-- C6: on a successful run of `get_annotation_for_file`, every line
index below `num_lines` of the starting file is present in the final
`original_line_map` (hence that map has exactly `num_lines` entries),
and the returned annotations hold exactly one `(CommitId, line)` entry
per line of the starting file in file order; the walk stops as soon as
the revset is exhausted or `original_line_map` reaches `num_lines`
right after a processed commit. -/
theorem annotate_success_completeness (env : AnnotateEnv) (c : CommitId)
    (res : List (CommitId × Content))
    (h : get_annotation_for_file env c = .ok res) :
    (∃ original_contents r,
      get_file_contents (env.treeValue c) = some original_contents ∧
      process_commits env c
        (PartialResults.new c (splitLines original_contents).length)
        (splitLines original_contents).length = .ok r ∧
      (∀ i, i < (splitLines original_contents).length →
        (lookupA r.original_line_map i).isSome = true) ∧
      r.original_line_map.length = (splitLines original_contents).length ∧
      res = (splitLines original_contents).enum.map
        (fun p => ((lookupA r.original_line_map p.1).getD 0, p.2)) ∧
      res.length = (splitLines original_contents).length) ∧
    (∀ (n : Nat) (r : PartialResults), processLoop env n [] r = .ok r) ∧
    (∀ (n : Nat) (cid : CommitId) (el : List GraphEdge)
        (rest : List (CommitId × List GraphEdge)) (r r' : PartialResults),
      env.getCommit cid = .ok () →
      process_commit env r cid el = .ok r' →
      n ≤ r'.original_line_map.length →
      processLoop env n ((cid, el) :: rest) r = .ok r') := by
  refine ⟨?_, ?_, ?_⟩
  · unfold get_annotation_for_file at h
    split at h
    · rename_i oc hoc
      dsimp only at h
      split at h
      · exact Except.noConfusion h
      · rename_i r hr
        unfold convert_to_results at h
        obtain ⟨ha, hb⟩ := convertLines_ok r.original_line_map _ res h
        have hinv : PRInv (splitLines oc).length r :=
          PRInv_process_commits hr (PRInv_new c _)
        have hcomp : ∀ i, i < (splitLines oc).length →
            (lookupA r.original_line_map i).isSome = true := by
          intro i hi
          have hmemi : i ∈ (splitLines oc).enum.map Prod.fst := by
            rw [List.enum_map_fst]
            exact List.mem_range.mpr hi
          obtain ⟨p, hp, hp1⟩ := List.mem_map.mp hmemi
          rw [← hp1]
          exact ha p hp
        refine ⟨oc, r, hoc, hr, hcomp, ?_, hb, ?_⟩
        · apply length_eq_of_complete _ _ hinv.1 hinv.2.1
          intro i hi
          rw [← lookupA_isSome_iff]
          exact hcomp i hi
        · rw [hb, List.length_map, List.enum_length]
    · exact Except.noConfusion h
  · intro n r
    rfl
  · intro n cid el rest r r' hc hpc hlen
    simp only [processLoop, hc, hpc]
    rw [if_pos hlen]

/-- Concrete environment with a two-line starting file `"x\ny\n"` whose
revset consists of the starting commit alone, for the C6 witness. -/
def envC6 : AnnotateEnv :=
  { treeValue := fun cid => if cid = 0 then .file [120, 10, 121, 10] else .absent
    getCommit := fun _ => .ok ()
    revsetGraph := fun _ => .ok [(0, [])]
    byLine := fun _ _ => [] }

theorem annotate_success_completeness_witness :
    (∃ original_contents r,
      get_file_contents (envC6.treeValue 0) = some original_contents ∧
      process_commits envC6 0
        (PartialResults.new 0 (splitLines original_contents).length)
        (splitLines original_contents).length = .ok r ∧
      (∀ i, i < (splitLines original_contents).length →
        (lookupA r.original_line_map i).isSome = true) ∧
      r.original_line_map.length = (splitLines original_contents).length ∧
      [(0, [120, 10]), (0, [121, 10])] = (splitLines original_contents).enum.map
        (fun p => ((lookupA r.original_line_map p.1).getD 0, p.2)) ∧
      ([(0, [120, 10]), (0, [121, 10])] : List (CommitId × Content)).length =
        (splitLines original_contents).length) ∧
    processLoop envC6 5 [] (PartialResults.new 0 2) = .ok (PartialResults.new 0 2) ∧
    processLoop envC6 1 [(0, [])] (PartialResults.new 0 1) =
      .ok ⟨[(0, 0)], [], []⟩ := by
  have h := annotate_success_completeness envC6 0 [(0, [120, 10]), (0, [121, 10])] rfl
  exact ⟨h.1, h.2.1 5 (PartialResults.new 0 2),
    h.2.2 1 0 [] [] (PartialResults.new 0 1) ⟨[(0, 0)], [], []⟩ rfl rfl (by decide)⟩

end JJ
